import Mathlib

/-!
Verification of the transform core (`util/ntt.py`): the modular NTT/FTT
context and the complex FFT/EMB context, together with their precomputation
and the collaborator functions from `util.number_theory` and
`util.bit_operations` that the module imports.  Integer coefficients are
modelled as `ℤ` (Python integers are unbounded) and Python's `%` on a
positive modulus agrees with `Int.emod`.  The complex floating-point
transforms are modelled in idealized exact arithmetic, generically over a
commutative ring/field holding the value `ζ` that idealizes
`complex(cos(2*pi/M), sin(2*pi/M))`.
-/

/-- Python-level failures relevant to this module: a failing `assert`
(AssertionError), a TypeError (raised e.g. by `"…" + n` for int `n`),
the number-theory collaborator's "not invertible" and "no root of unity"
errors, and an out-of-range list subscript (IndexError). -/
inductive PyErr
  | assertionFailure
  | typeError
  | notInvertible
  | noRootOfUnity
  | indexError
deriving DecidableEq, Repr

instance exceptDecEq {ε α : Type} [DecidableEq ε] [DecidableEq α] :
    DecidableEq (Except ε α) := fun a b =>
  match a, b with
  | .error e, .error f =>
    if h : e = f then .isTrue (by rw [h]) else
      .isFalse (fun hc => by cases hc; exact h rfl)
  | .error _, .ok _ => .isFalse (fun hc => by cases hc)
  | .ok _, .error _ => .isFalse (fun hc => by cases hc)
  | .ok x, .ok y =>
    if h : x = y then .isTrue (by rw [h]) else
      .isFalse (fun hc => by cases hc; exact h rfl)

/-- Modelled from the spec: the `util.bit_operations` collaborator
`reverse_bits(value, width)` returns `value` with its low `width` bits
reversed (bit 0 goes to position `width-1` and so on; higher bits are
dropped). -/
def reverseBits : ℕ → ℕ → ℕ
  | _, 0 => 0
  | v, w+1 => (v % 2) * 2^w + reverseBits (v / 2) w

/-- Fuel-driven base-2 logarithm, structurally recursive so that concrete
instances compute by kernel reduction. -/
def log2F : ℕ → ℕ → ℕ
  | 0, _ => 0
  | fuel + 1, n => if 2 ≤ n then log2F fuel (n / 2) + 1 else 0

/-- `int(log(n, 2))` for the powers of two appearing in the transforms:
agrees with `Nat.log2` (shown in `log2E_eq`) but evaluates by structural
recursion. -/
def log2E (n : ℕ) : ℕ := log2F n n

/-- Modelled from the spec: the `util.bit_operations` collaborator
`bit_reverse_vec(sequence)` returns a new sequence permuted by the
bit-reversal of each index (length a power of two). -/
def bitReverseVec {K : Type} [Zero K] (xs : List K) : List K :=
  (List.range xs.length).map (fun i => xs.getD (reverseBits i (log2E xs.length)) 0)

/-- Modelled from the spec: the `util.number_theory` collaborator
`mod_inv(x, modulus)` returns the modular inverse of `x`, and fails with a
"not invertible" error if `gcd(x, modulus) ≠ 1`.  Modelled as the search
for the least inverse residue. -/
def modInvE (x a : ℤ) : Except PyErr ℤ :=
  match (List.range a.toNat).find? (fun y : ℕ => (x * (y : ℤ)) % a == 1) with
  | some y => .ok (y : ℤ)
  | none => .error .notInvertible

/-- Modelled from the spec: the `util.number_theory` collaborator
`root_of_unity(order, modulus)` returns an element of exact multiplicative
order `order` modulo `modulus` and fails with a "no such root" error when
none exists.  Modelled as the search for the least such element. -/
def rootOfUnityE (order : ℕ) (a : ℤ) : Except PyErr ℤ :=
  match (List.range a.toNat).find? (fun g : ℕ =>
      ((g : ℤ)^order % a == 1) && decide (∀ m < order, 0 < m → (g : ℤ)^m % a ≠ 1)) with
  | some g => .ok (g : ℤ)
  | none => .error .noRootOfUnity

/-- The iterative power-table recurrence of `precompute_ntt`: entry `0` is
`1`, and entry `i+1` is `(entry i * w) % a`. -/
def rouPow (w a : ℤ) : ℕ → ℤ
  | 0 => 1
  | i+1 => (rouPow w a i * w) % a

/-- The `NTTContext` record: ring degree, coefficient modulus and the four
precomputed tables of `precompute_ntt`. -/
structure NTTCtx where
  degree : ℕ
  coeff_modulus : ℤ
  roots_of_unity : List ℤ
  roots_of_unity_inv : List ℤ
  scaled_rou_inv : List ℤ
  reversed_bits : List ℕ
deriving DecidableEq, Repr

/-- The root resolution of `NTTContext.__init__`: `if not root_of_unity:`
(true for a missing root and also for a supplied root equal to `0`, since
`not 0` is true in Python) calls the `root_of_unity` collaborator, otherwise
the supplied root is used. -/
def resolveRoot (root? : Option ℤ) (order : ℕ) (a : ℤ) : Except PyErr ℤ :=
  match root? with
  | some r => if r ≠ 0 then pure r else rootOfUnityE order a
  | none => rootOfUnityE order a

/-- `NTTContext.__init__` followed by `precompute_ntt`: asserts that the
degree is a power of two (the Python test `(d & (d-1)) == 0`), resolves the
root of unity (`if not root_of_unity:` — which also triggers on a supplied
root equal to `0`, since `not 0` is true in Python), then builds, in source
order, the forward root table, the inverse root table (via `mod_inv`), the
`1/d`-scaled inverse table (via `mod_inv`) and the reversed-bits table
(via `reverse_bits`, with `int(log(d, 2))` modelled as `log2E d`). -/
def nttCtxInit (poly_degree : ℕ) (coeff_modulus : ℤ) (root? : Option ℤ) :
    Except PyErr NTTCtx := do
  if poly_degree &&& (poly_degree - 1) ≠ 0 then throw .assertionFailure
  let root ← resolveRoot root? (2 * poly_degree) coeff_modulus
  let roots := (List.range poly_degree).map (rouPow root coeff_modulus)
  let rinv ← modInvE root coeff_modulus
  let rootsInv := (List.range poly_degree).map (rouPow rinv coeff_modulus)
  let dinv ← modInvE (poly_degree : ℤ) coeff_modulus
  let scaled := (List.range poly_degree).map
    (fun i => (dinv * rootsInv.getD i 0) % coeff_modulus)
  let rbits := (List.range poly_degree).map
    (fun i => reverseBits i (log2E poly_degree) % poly_degree)
  pure ⟨poly_degree, coeff_modulus, roots, rootsInv, scaled, rbits⟩

/-- One stage (fixed `logm`) of the loop of `NTTContext.ntt`: for each
block offset `j = 0, 2^logm, 2·2^logm, …` (a `range(0, n, 1 << logm)` loop,
hence `⌈n/2^logm⌉` blocks) and each pair index `i < 2^(logm-1)`, the modular
butterfly on positions `j+i` and `j+i+2^(logm-1)` with twiddle
`rou[i << (1 + log2(n) - logm)]`. -/
def nttStageList (a : ℤ) (rou : List ℤ) (L logm n : ℕ) (res : List ℤ) : List ℤ :=
  (List.range ((n + 2^logm - 1) / 2^logm)).foldl (fun res2 jj =>
    let j := jj * 2^logm
    (List.range (2^(logm - 1))).foldl (fun res3 i =>
      let index_even := j + i
      let index_odd := j + i + 2^(logm - 1)
      let rou_idx := i <<< (1 + L - logm)
      let omega_factor := (rou.getD rou_idx 0 * res3.getD index_odd 0) % a
      let butterfly_plus := (res3.getD index_even 0 + omega_factor) % a
      let butterfly_minus := (res3.getD index_even 0 - omega_factor) % a
      (res3.set index_even butterfly_plus).set index_odd butterfly_minus) res2) res

/-- `NTTContext.ntt(coeffs, rou)`, the iterated radix-2 transform, with the
in-place butterfly loops rendered as folds carrying the working buffer
(`result[i] = coeffs[reversed_bits[i]]`, then for each stage
`logm = 1, …, log2(n)` the butterflies of `nttStageList`).  Out-of-range
subscripts are modelled by `getD`/`set` (the checked variant is `nttE`);
`int(log(n, 2))` is `log2E n`. -/
def nttList (ctx : NTTCtx) (coeffs rou : List ℤ) : List ℤ :=
  let n := coeffs.length
  let a := ctx.coeff_modulus
  let result := (List.range n).map (fun i => coeffs.getD (ctx.reversed_bits.getD i 0) 0)
  let L := log2E n
  (List.range L).foldl (fun res lm => nttStageList a rou L (lm + 1) n res) result

/-- Checked list subscript: a Python `xs[i]` for a nonnegative index, as an
`Except` that raises IndexError when `i` is out of range. -/
def listGetE {α : Type} (xs : List α) (i : ℕ) : Except PyErr α :=
  match xs.get? i with
  | some v => .ok v
  | none => .error .indexError

/-- The bit-reversal load loop of `NTTContext.ntt` with checked subscripts:
`result[i] = coeffs[reversed_bits[i]]` for `i < n`, raising IndexError when
either subscript is out of range. -/
def nttLoadE (ctx : NTTCtx) (coeffs : List ℤ) (n : ℕ) : Except PyErr (List ℤ) :=
  (List.range n).foldlM (fun (acc : List ℤ) i => do
      let rb ← listGetE ctx.reversed_bits i
      let c ← listGetE coeffs rb
      pure (acc ++ [c])) ([] : List ℤ)

/-- One stage of the loop of `NTTContext.ntt` with checked subscripts:
the blocks and butterflies of `nttStageList`, raising IndexError when a
subscript is out of range. -/
def nttStageE (a : ℤ) (rou : List ℤ) (L logm n : ℕ) (res : List ℤ) :
    Except PyErr (List ℤ) :=
  (List.range ((n + 2^logm - 1) / 2^logm)).foldlM (fun res2 jj =>
    let j := jj * 2^logm
    (List.range (2^(logm - 1))).foldlM (fun res3 i => do
      let index_even := j + i
      let index_odd := j + i + 2^(logm - 1)
      let rou_idx := i <<< (1 + L - logm)
      let rv ← listGetE rou rou_idx
      let ro ← listGetE res3 index_odd
      let re ← listGetE res3 index_even
      let omega_factor := (rv * ro) % a
      let butterfly_plus := (re + omega_factor) % a
      let butterfly_minus := (re - omega_factor) % a
      pure ((res3.set index_even butterfly_plus).set index_odd butterfly_minus))
      res2) res

/-- `NTTContext.ntt` with every list subscript checked, and with the length
precondition of line 101: when `len(rou) != len(coeffs)` the assert fails,
but evaluating its message `"... Length is " + len(rou)` concatenates a
`str` and an `int`, so Python raises TypeError (not the intended
AssertionError). -/
def nttE (ctx : NTTCtx) (coeffs rou : List ℤ) : Except PyErr (List ℤ) := do
  let n := coeffs.length
  let a := ctx.coeff_modulus
  if rou.length ≠ n then throw .typeError
  let result ← nttLoadE ctx coeffs n
  let L := log2E n
  (List.range L).foldlM (fun res lm => nttStageE a rou L (lm + 1) n res) result

/-- `NTTContext.ftt_fwd(coeffs)`: twist coefficient `i` by
`roots_of_unity[i]` modulo `a`, then run `ntt` with the forward table.
The length assert of line 138 is a hypothesis of the theorems. -/
def fttFwdList (ctx : NTTCtx) (coeffs : List ℤ) : List ℤ :=
  let n := coeffs.length
  let ftt_input := (List.range n).map
    (fun i => (coeffs.getD i 0 * ctx.roots_of_unity.getD i 0) % ctx.coeff_modulus)
  nttList ctx ftt_input ctx.roots_of_unity

/-- `NTTContext.ftt_inv(coeffs)`: run `ntt` with the inverse table, then
multiply entry `i` by `scaled_rou_inv[i]` modulo `a`.  The length assert of
line 159 is a hypothesis of the theorems. -/
def fttInvList (ctx : NTTCtx) (coeffs : List ℤ) : List ℤ :=
  let n := coeffs.length
  let to_scale_down := nttList ctx coeffs ctx.roots_of_unity_inv
  (List.range n).map
    (fun i => (to_scale_down.getD i 0 * ctx.scaled_rou_inv.getD i 0) % ctx.coeff_modulus)

/-- The `FFTContext` record: length `M`, the `M+1` roots of unity, the
rotation-group table (powers of 5 mod `M`) and the `M/4`-sized
reversed-bits table. -/
structure FFTCtx (K : Type) where
  M : ℕ
  roots_of_unity : List K
  rot_group : List ℕ
  reversed_bits : List ℕ

/-- The iterative rotation-group recurrence of `FFTContext.__init__`:
entry `0` is `1`, entry `j+1` is `(5 * entry j) % M`. -/
def rotPow (M : ℕ) : ℕ → ℕ
  | 0 => 1
  | j+1 => (5 * rotPow M j) % M

/-- `FFTContext.__init__(M)` in idealized arithmetic: entry `i` of
`roots_of_unity` is `complex(cos(2*pi*i/M), sin(2*pi*i/M))`, i.e. `ζ^i`
where `ζ = e^{2πi/M}`; the construction is modelled generically in a
commutative ring holding such a `ζ`.  `rot_group` and `reversed_bits` are
the integer tables of the source. -/
def fftCtxInit (K : Type) [CommRing K] (ζ : K) (M : ℕ) : FFTCtx K :=
  ⟨M, (List.range (M + 1)).map (fun i => ζ ^ i),
    (List.range (M / 4)).map (rotPow M),
    (List.range (M / 4)).map (fun i => reverseBits i (log2E (M / 4)) % (M / 4))⟩

/-- The bit-reversal load loop of `FFTContext.fft` with checked subscripts:
`result[i] = coeffs[reversed_bits[i]]` for `i < n`, raising IndexError when
either subscript is out of range (the `reversed_bits` table of an
`FFTContext` has `M/4` entries). -/
def fftLoadE {K : Type} [CommRing K] (ctx : FFTCtx K) (coeffs : List K) (n : ℕ) :
    Except PyErr (List K) :=
  (List.range n).foldlM (fun (acc : List K) i => do
      let rb ← listGetE ctx.reversed_bits i
      let c ← listGetE coeffs rb
      pure (acc ++ [c])) ([] : List K)

/-- One stage of the loop of `FFTContext.fft` with checked subscripts: the
blocks and butterflies of `ntt` without the modular reduction, raising
IndexError when a subscript is out of range. -/
def fftStageE {K : Type} [CommRing K] (rou : List K) (L logm n : ℕ) (res : List K) :
    Except PyErr (List K) :=
  (List.range ((n + 2^logm - 1) / 2^logm)).foldlM (fun res2 jj =>
    let j := jj * 2^logm
    (List.range (2^(logm - 1))).foldlM (fun res3 i => do
      let index_even := j + i
      let index_odd := j + i + 2^(logm - 1)
      let rou_idx := i <<< (1 + L - logm)
      let rv ← listGetE rou rou_idx
      let ro ← listGetE res3 index_odd
      let re ← listGetE res3 index_even
      let omega_factor := rv * ro
      let butterfly_plus := re + omega_factor
      let butterfly_minus := re - omega_factor
      pure ((res3.set index_even butterfly_plus).set index_odd butterfly_minus))
      res2) res

/-- `FFTContext.fft(coeffs, rou)`: the same butterfly shape as `ntt` but
without modular reduction, with every list subscript checked and with the
same length assert whose message raises TypeError (line 224-225). -/
def fftE {K : Type} [CommRing K] (ctx : FFTCtx K) (coeffs rou : List K) :
    Except PyErr (List K) := do
  let n := coeffs.length
  if rou.length ≠ n then throw .typeError
  let result ← fftLoadE ctx coeffs n
  let L := log2E n
  (List.range L).foldlM (fun res lm => fftStageE rou L (lm + 1) n res) result

/-- One stage (fixed length `l`) of the loop of `FFTContext.emb`: for each
block offset `i = 0, l, 2l, …` (a `range(0, n, l)` loop, `⌈n/l⌉` blocks)
and each `j < l/2`, the packed butterfly on positions `i+j` and `i+j+l/2`
with twiddle `roots_of_unity[(rot_group[j] % (4l)) * (M / (4l))]`. -/
def embStageList {K : Type} [CommRing K] (ctx : FFTCtx K) (l n : ℕ) (res : List K) :
    List K :=
  (List.range ((n + l - 1) / l)).foldl (fun res2 ib =>
    let i := ib * l
    let lh := l >>> 1
    let lq := l <<< 2
    let gap := ctx.M / lq
    (List.range lh).foldl (fun res3 j =>
      let idx := (ctx.rot_group.getD j 0 % lq) * gap
      let u := res3.getD (i + j) 0
      let v := res3.getD (i + j + lh) 0 * ctx.roots_of_unity.getD idx 0
      (res3.set (i + j) (u + v)).set (i + j + lh) (u - v)) res2) res

/-- `FFTContext.emb(coeffs)`: bit-reverse the input, then run
`embStageList` for stage length `l = 2, 4, …, n`. -/
def embList {K : Type} [CommRing K] (ctx : FFTCtx K) (coeffs : List K) : List K :=
  let n := coeffs.length
  let res := bitReverseVec coeffs
  (List.range (log2E n)).foldl (fun res s => embStageList ctx (2^(s+1)) n res) res

/-- One stage (fixed length `l`) of the loop of `FFTContext.emb_inv`: the
inverse packed butterfly `(u, v) := (x[i+j] + x[i+j+l/2],
(x[i+j] - x[i+j+l/2]) * roots_of_unity[(4l - rot_group[j] % (4l)) * (M/(4l))])`. -/
def embInvStageList {K : Type} [CommRing K] (ctx : FFTCtx K) (l n : ℕ) (res : List K) :
    List K :=
  (List.range ((n + l - 1) / l)).foldl (fun res2 ib =>
    let i := ib * l
    let lh := l >>> 1
    let lq := l <<< 2
    let gap := ctx.M / lq
    (List.range lh).foldl (fun res3 j =>
      let idx := (lq - ctx.rot_group.getD j 0 % lq) * gap
      let u := res3.getD (i + j) 0 + res3.getD (i + j + lh) 0
      let v := (res3.getD (i + j) 0 - res3.getD (i + j + lh) 0) *
        ctx.roots_of_unity.getD idx 0
      (res3.set (i + j) u).set (i + j + lh) v) res2) res

/-- `FFTContext.emb_inv(coeffs)`: run `embInvStageList` for stage length
`l = n, n/2, …, 1`, then bit-reverse and divide every entry by `n`. -/
def embInvList {K : Type} [Field K] (ctx : FFTCtx K) (coeffs : List K) : List K :=
  let n := coeffs.length
  let res := (List.range (log2E n + 1)).foldl
    (fun res s => embInvStageList ctx (n >>> s) n res) coeffs
  let to_scale_down := bitReverseVec res
  (List.range n).map (fun i => to_scale_down.getD i 0 / (n : K))

/-- One butterfly pair update: read positions `j+i` and `j+i+mh`, overwrite
them with `P i u v` and `Q i u v`. -/
def bflyStep {α : Type} (P Q : ℕ → α → α → α) (dflt : α) (j mh : ℕ)
    (res : List α) (i : ℕ) : List α :=
  let u := res.getD (j + i) dflt
  let v := res.getD (j + i + mh) dflt
  (res.set (j + i) (P i u v)).set (j + i + mh) (Q i u v)

def stageFn {R : Type} [CommRing R] (V : ℕ → R) (L logm : ℕ) (x : ℕ → R) : ℕ → R :=
  fun k =>
    if k % 2^logm < 2^(logm - 1) then
      x k + V ((k % 2^logm) * 2^(L - logm)) * x (k + 2^(logm - 1))
    else
      x (k - 2^(logm - 1)) - V ((k % 2^logm - 2^(logm - 1)) * 2^(L - logm)) * x k

def bitrevFn {R : Type} (L : ℕ) (x : ℕ → R) : ℕ → R := fun k => x (reverseBits k L)

def nttStages {R : Type} [CommRing R] (V : ℕ → R) (L J : ℕ) (x : ℕ → R) : ℕ → R :=
  (List.range J).foldl (fun y lm => stageFn V L (lm + 1) y) x

def nttFn {R : Type} [CommRing R] (V : ℕ → R) (L : ℕ) (x : ℕ → R) : ℕ → R :=
  nttStages V L L (bitrevFn L x)

def glue {R : Type} (h : ℕ) (x0 x1 : ℕ → R) : ℕ → R :=
  fun k => if k < h then x0 k else x1 (k - h)

/-- Exponent weight of the network entry `(k, j)`:
`∑_{r<L} bit_r(j) · 2^r · (k mod 2^(L-1-r))`. -/
def eW (L k j : ℕ) : ℕ :=
  ∑ r ∈ Finset.range L, (j.testBit r).toNat * 2 ^ r * (k % 2 ^ (L - 1 - r))

/-- Sign weight of the network entry `(k, j)`:
`∑_{r<L} bit_r(j) · bit_{L-1-r}(k)`. -/
def sW (L k j : ℕ) : ℕ :=
  ∑ r ∈ Finset.range L, (j.testBit r).toNat * (k.testBit (L - 1 - r)).toNat

/-- The matrix the iterated network actually computes: row `k` of the
transform applied to `x` is `∑_j x j · (-1)^{sW L k j} · ω^{eW L k j}`. -/
def dftW {R : Type} [CommRing R] (ω : R) (L : ℕ) (x : ℕ → R) (k : ℕ) : R :=
  ∑ j ∈ Finset.range (2 ^ L), x j * (-1) ^ (sW L k j) * ω ^ (eW L k j)

/-- Modelled from the spec: the naive O(d²) reference convolution — coefficient
`m` of `p·q mod (x^d + 1)`, reduced modulo `a`. -/
def negacyclicConv (a : ℤ) (d : ℕ) (p q : List ℤ) : List ℤ :=
  (List.range d).map (fun m =>
    ((∑ i ∈ Finset.range (m + 1), p.getD i 0 * q.getD (m - i) 0)
      - ∑ i ∈ Finset.Ico (m + 1) d, p.getD i 0 * q.getD (m + d - i) 0) % a)

/-- Modelled from the spec: coordinatewise product modulo `a`, the step between
`ftt_fwd` and `ftt_inv` in the convolution pipeline. -/
def pointwiseMulMod (a : ℤ) (d : ℕ) (f g : List ℤ) : List ℤ :=
  (List.range d).map (fun i => (f.getD i 0 * g.getD i 0) % a)

instance fact_prime_17 : Fact (Nat.Prime 17) := ⟨by norm_num⟩

/-! ### Basic facts about `reverseBits`, `log2E` and powers of two -/

theorem log2F_eq (fuel : ℕ) : ∀ n, n ≤ fuel → log2F fuel n = Nat.log2 n := by
  induction fuel with
  | zero =>
    intro n hn
    have hn0 : n = 0 := by omega
    subst hn0
    simp only [log2F]
    unfold Nat.log2
    norm_num
  | succ fuel ih =>
    intro n hn
    simp only [log2F]
    unfold Nat.log2
    by_cases h2 : 2 ≤ n
    · rw [if_pos h2, if_pos h2, ih (n / 2) (by omega)]
    · rw [if_neg h2, if_neg h2]

theorem log2E_eq (n : ℕ) : log2E n = Nat.log2 n := log2F_eq n n le_rfl

theorem log2E_two_pow {L : ℕ} : log2E (2 ^ L) = L := by
  rw [log2E_eq]
  exact Nat.log2_two_pow

theorem reverseBits_lt (v w : ℕ) : reverseBits v w < 2 ^ w := by
  induction w generalizing v with
  | zero => simp [reverseBits]
  | succ w ih =>
    have h1 : v % 2 ≤ 1 := Nat.le_of_lt_succ (Nat.mod_lt _ (by norm_num))
    have h2 := ih (v / 2)
    have h3 : (v % 2) * 2 ^ w ≤ 2 ^ w := by
      calc (v % 2) * 2 ^ w ≤ 1 * 2 ^ w := Nat.mul_le_mul_right _ h1
        _ = 2 ^ w := one_mul _
    have h4 : 2 ^ (w + 1) = 2 ^ w + 2 ^ w := by ring
    simp only [reverseBits]
    omega

theorem reverseBits_decomp (v w : ℕ) :
    reverseBits v (w + 1) = 2 * reverseBits (v % 2 ^ w) w + v / 2 ^ w % 2 := by
  induction w generalizing v with
  | zero => simp [reverseBits]
  | succ w ih =>
    have e1 : v % 2 ^ (w + 1) % 2 = v % 2 :=
      Nat.mod_mod_of_dvd v (dvd_pow_self 2 (Nat.succ_ne_zero w))
    have e2 : v % 2 ^ (w + 1) / 2 = v / 2 % 2 ^ w := by
      rw [pow_succ, mul_comm]
      exact Nat.mod_mul_right_div_self v 2 (2 ^ w)
    have e3 : v / 2 / 2 ^ w = v / 2 ^ (w + 1) := by
      rw [Nat.div_div_eq_div_mul, pow_succ, mul_comm]
    calc reverseBits v (w + 2)
        = (v % 2) * 2 ^ (w + 1) + reverseBits (v / 2) (w + 1) := rfl
      _ = (v % 2) * 2 ^ (w + 1) +
          (2 * reverseBits (v / 2 % 2 ^ w) w + v / 2 / 2 ^ w % 2) := by rw [ih]
      _ = 2 * ((v % 2) * 2 ^ w + reverseBits (v / 2 % 2 ^ w) w) + v / 2 / 2 ^ w % 2 := by
          ring
      _ = 2 * ((v % 2 ^ (w + 1) % 2) * 2 ^ w + reverseBits (v % 2 ^ (w + 1) / 2) w) +
          v / 2 ^ (w + 1) % 2 := by rw [e1, e2, e3]
      _ = 2 * reverseBits (v % 2 ^ (w + 1)) (w + 1) + v / 2 ^ (w + 1) % 2 := rfl

theorem reverseBits_reverseBits (v w : ℕ) (hv : v < 2 ^ w) :
    reverseBits (reverseBits v w) w = v := by
  induction w generalizing v with
  | zero =>
    have : v = 0 := by simpa using hv
    simp [this, reverseBits]
  | succ w ih =>
    have h2 : 2 ^ (w + 1) = 2 * 2 ^ w := by ring
    have hlt : reverseBits (v / 2) w < 2 ^ w := reverseBits_lt _ _
    have hdv : v / 2 < 2 ^ w := by omega
    have hmod : ((v % 2) * 2 ^ w + reverseBits (v / 2) w) % 2 ^ w = reverseBits (v / 2) w := by
      rw [Nat.add_mod, Nat.mul_mod_left, Nat.zero_add, Nat.mod_mod_of_dvd _ (dvd_refl _),
        Nat.mod_eq_of_lt hlt]
    have hdiv : ((v % 2) * 2 ^ w + reverseBits (v / 2) w) / 2 ^ w = v % 2 := by
      rw [Nat.add_comm, Nat.mul_comm, Nat.add_mul_div_left _ _ (Nat.two_pow_pos w),
        Nat.div_eq_of_lt hlt]
      omega
    have hstep : reverseBits v (w + 1) = (v % 2) * 2 ^ w + reverseBits (v / 2) w := rfl
    rw [hstep, reverseBits_decomp, hmod, hdiv, ih (v / 2) hdv]
    have := Nat.mod_two_eq_zero_or_one v
    omega

theorem reverseBits_low (v w : ℕ) (hv : v < 2 ^ w) :
    reverseBits v (w + 1) = 2 * reverseBits v w := by
  rw [reverseBits_decomp, Nat.mod_eq_of_lt hv, Nat.div_eq_of_lt hv]
  simp

theorem reverseBits_high (v w : ℕ) (hv : v < 2 ^ w) :
    reverseBits (2 ^ w + v) (w + 1) = 2 * reverseBits v w + 1 := by
  rw [reverseBits_decomp]
  have h1 : (2 ^ w + v) % 2 ^ w = v := by
    rw [Nat.add_mod_left, Nat.mod_eq_of_lt hv]
  have h2 : (2 ^ w + v) / 2 ^ w = 1 := by
    rw [Nat.add_comm, Nat.add_div_right _ (Nat.two_pow_pos w), Nat.div_eq_of_lt hv]
  rw [h1, h2]

theorem testBit_of_mem_Ico {x k : ℕ} (h1 : 2 ^ k ≤ x) (h2 : x < 2 ^ (k + 1)) :
    x.testBit k = true := by
  have hdiv : x / 2 ^ k = 1 := by
    apply Nat.div_eq_of_lt_le
    · simpa using h1
    · have h3 : 2 ^ (k + 1) = 2 * 2 ^ k := by ring
      omega
  rw [Nat.testBit_to_div_mod, hdiv]
  decide

theorem and_pred_eq_zero_iff {d : ℕ} (hd : 0 < d) :
    d &&& (d - 1) = 0 ↔ ∃ L, d = 2 ^ L := by
  constructor
  · intro h
    by_contra hne
    push_neg at hne
    have h1 : 2 ^ Nat.log2 d ≤ d := Nat.log2_self_le (by omega)
    have h2 : d < 2 ^ (Nat.log2 d + 1) := Nat.lt_log2_self
    have h3 : 2 ^ Nat.log2 d < d := lt_of_le_of_ne h1 (fun he => hne _ he.symm)
    have hb1 : d.testBit (Nat.log2 d) = true := testBit_of_mem_Ico h1 h2
    have hb2 : (d - 1).testBit (Nat.log2 d) = true :=
      testBit_of_mem_Ico (by omega) (by omega)
    have := congrArg (fun x => x.testBit (Nat.log2 d)) h
    simp only [Nat.testBit_land, Nat.zero_testBit, hb1, hb2] at this
    simp at this
  · rintro ⟨L, rfl⟩
    apply Nat.eq_of_testBit_eq
    intro i
    simp only [Nat.testBit_land, Nat.zero_testBit]
    rcases eq_or_ne L i with rfl | hne
    · simp [Nat.testBit_two_pow_sub_one]
    · simp [Nat.testBit_two_pow_of_ne hne]

/-! ### Generic in-place butterfly passes on lists

All three transforms (`ntt`, `emb`, `emb_inv`) run, per stage, a double loop
of independent pair updates: the pair at block offset `j` and index `i`
reads positions `j+i` and `j+i+mh` and overwrites exactly those two.  The
generic pass is characterised pointwise below. -/

theorem getD_set_self {α : Type} (l : List α) (i : ℕ) (a d : α) (h : i < l.length) :
    (l.set i a).getD i d = a := by
  simp [List.getD_eq_getElem?_getD, List.getElem?_set_self h]

theorem getD_set_ne {α : Type} (l : List α) {i j : ℕ} (a d : α) (h : i ≠ j) :
    (l.set i a).getD j d = l.getD j d := by
  simp [List.getD_eq_getElem?_getD, List.getElem?_set_ne h]

theorem bflyStep_length {α : Type} (P Q : ℕ → α → α → α) (dflt : α) (j mh : ℕ)
    (res : List α) (i : ℕ) : (bflyStep P Q dflt j mh res i).length = res.length := by
  simp [bflyStep]

theorem bflyFold_length {α : Type} (P Q : ℕ → α → α → α) (dflt : α) (j mh cnt : ℕ)
    (res : List α) :
    ((List.range cnt).foldl (bflyStep P Q dflt j mh) res).length = res.length := by
  induction cnt generalizing res with
  | zero => rfl
  | succ cnt ih => rw [List.range_succ, List.foldl_append]; simp [bflyStep, ih]

theorem bflyFold_getD {α : Type} (P Q : ℕ → α → α → α) (dflt : α) (j mh : ℕ)
    (res : List α) (hmh : 0 < mh) (hj : j + mh + mh ≤ res.length) :
    ∀ cnt ≤ mh, ∀ k,
      ((List.range cnt).foldl (bflyStep P Q dflt j mh) res).getD k dflt =
        if j ≤ k ∧ k < j + cnt then
          P (k - j) (res.getD k dflt) (res.getD (k + mh) dflt)
        else if j + mh ≤ k ∧ k < j + mh + cnt then
          Q (k - (j + mh)) (res.getD (k - mh) dflt) (res.getD k dflt)
        else res.getD k dflt := by
  intro cnt
  induction cnt with
  | zero =>
    intro _ k
    simp only [List.range_zero, List.foldl_nil, Nat.add_zero]
    rw [if_neg (by omega), if_neg (by omega)]
  | succ cnt ih =>
    intro hcnt k
    have hcnt' : cnt ≤ mh := by omega
    rw [List.range_succ, List.foldl_append]
    simp only [List.foldl_cons, List.foldl_nil]
    set prev := (List.range cnt).foldl (bflyStep P Q dflt j mh) res with hprev
    have hlen : prev.length = res.length := bflyFold_length P Q dflt j mh cnt res
    have hu : prev.getD (j + cnt) dflt = res.getD (j + cnt) dflt := by
      rw [ih hcnt' (j + cnt)]
      have c1 : ¬(j ≤ j + cnt ∧ j + cnt < j + cnt) := by omega
      have c2 : ¬(j + mh ≤ j + cnt ∧ j + cnt < j + mh + cnt) := by omega
      rw [if_neg c1, if_neg c2]
    have hv : prev.getD (j + cnt + mh) dflt = res.getD (j + cnt + mh) dflt := by
      rw [ih hcnt' (j + cnt + mh)]
      have c1 : ¬(j ≤ j + cnt + mh ∧ j + cnt + mh < j + cnt) := by omega
      have c2 : ¬(j + mh ≤ j + cnt + mh ∧ j + cnt + mh < j + mh + cnt) := by omega
      rw [if_neg c1, if_neg c2]
    show (bflyStep P Q dflt j mh prev cnt).getD k dflt = _
    simp only [bflyStep]
    rcases eq_or_ne k (j + cnt + mh) with rfl | hk2
    · rw [getD_set_self _ _ _ _ (by simp [hlen]; omega)]
      rw [hu, hv]
      have e1 : j + cnt + mh - (j + mh) = cnt := by omega
      have e2 : j + cnt + mh - mh = j + cnt := by omega
      rw [if_neg (by omega : ¬(j ≤ j + cnt + mh ∧ j + cnt + mh < j + (cnt + 1))),
        if_pos (by omega : j + mh ≤ j + cnt + mh ∧ j + cnt + mh < j + mh + (cnt + 1)),
        e1, e2]
    · rw [getD_set_ne _ _ _ (fun h => hk2 h.symm)]
      rcases eq_or_ne k (j + cnt) with rfl | hk1
      · rw [getD_set_self _ _ _ _ (by omega)]
        rw [hu, hv]
        have e1 : j + cnt - j = cnt := by omega
        rw [if_pos (by omega : j ≤ j + cnt ∧ j + cnt < j + (cnt + 1)), e1]
      · rw [getD_set_ne _ _ _ (fun h => hk1 h.symm)]
        rw [ih hcnt' k]
        have e1 : (j ≤ k ∧ k < j + cnt) ↔ (j ≤ k ∧ k < j + (cnt + 1)) := by omega
        have e2 : (j + mh ≤ k ∧ k < j + mh + cnt) ↔
            (j + mh ≤ k ∧ k < j + mh + (cnt + 1)) := by omega
        rw [if_congr e1 rfl rfl, if_congr e2 rfl rfl]

theorem mod_eq_sub_of_between {k q m : ℕ} (h1 : q * m ≤ k) (h2 : k < (q + 1) * m) :
    k % m = k - q * m := by
  have hx : (q + 1) * m = q * m + m := by ring
  obtain ⟨r, hr⟩ : ∃ r, k = q * m + r := ⟨k - q * m, by omega⟩
  have hrm : r < m := by omega
  subst hr
  rw [Nat.mul_comm q m, Nat.mul_add_mod, Nat.mod_eq_of_lt hrm]
  omega

theorem bflyBlocks_length {α : Type} (P Q : ℕ → α → α → α) (dflt : α) (mh JJ : ℕ)
    (res : List α) :
    ((List.range JJ).foldl
        (fun r jj => (List.range mh).foldl (bflyStep P Q dflt (jj * (2 * mh)) mh) r)
        res).length = res.length := by
  induction JJ generalizing res with
  | zero => rfl
  | succ JJ ih =>
    rw [List.range_succ, List.foldl_append]
    simp only [List.foldl_cons, List.foldl_nil]
    rw [bflyFold_length, ih]

theorem bflyBlocks_getD {α : Type} (P Q : ℕ → α → α → α) (dflt : α) (mh : ℕ)
    (res : List α) (hmh : 0 < mh) (nb : ℕ) (hn : nb * (2 * mh) ≤ res.length) :
    ∀ JJ ≤ nb, ∀ k,
      ((List.range JJ).foldl
          (fun r jj => (List.range mh).foldl (bflyStep P Q dflt (jj * (2 * mh)) mh) r)
          res).getD k dflt =
        if k < JJ * (2 * mh) then
          (if k % (2 * mh) < mh then
            P (k % (2 * mh)) (res.getD k dflt) (res.getD (k + mh) dflt)
          else Q (k % (2 * mh) - mh) (res.getD (k - mh) dflt) (res.getD k dflt))
        else res.getD k dflt := by
  intro JJ
  induction JJ with
  | zero => intro _ k; simp
  | succ JJ ih =>
    intro hJJ k
    have hJJ' : JJ ≤ nb := by omega
    have hmul : (JJ + 1) * (2 * mh) ≤ nb * (2 * mh) := Nat.mul_le_mul_right _ hJJ
    rw [List.range_succ, List.foldl_append]
    simp only [List.foldl_cons, List.foldl_nil]
    set prev := (List.range JJ).foldl
      (fun r jj => (List.range mh).foldl (bflyStep P Q dflt (jj * (2 * mh)) mh) r) res
      with hprev
    have hlen : prev.length = res.length := bflyBlocks_length P Q dflt mh JJ res
    have hj : JJ * (2 * mh) + mh + mh ≤ prev.length := by
      rw [hlen]
      have : (JJ + 1) * (2 * mh) = JJ * (2 * mh) + mh + mh := by ring
      omega
    rw [bflyFold_getD P Q dflt (JJ * (2 * mh)) mh prev hmh hj mh (le_refl mh) k]
    have hexp : (JJ + 1) * (2 * mh) = JJ * (2 * mh) + mh + mh := by ring
    rcases Nat.lt_or_ge k (JJ * (2 * mh)) with hk | hk
    · have c1 : ¬(JJ * (2 * mh) ≤ k ∧ k < JJ * (2 * mh) + mh) := by omega
      have c2 : ¬(JJ * (2 * mh) + mh ≤ k ∧ k < JJ * (2 * mh) + mh + mh) := by omega
      have c3 : k < (JJ + 1) * (2 * mh) := by omega
      rw [if_neg c1, if_neg c2, ih hJJ' k, if_pos hk, if_pos c3]
    · rcases Nat.lt_or_ge k ((JJ + 1) * (2 * mh)) with hk2 | hk2
      · have hmod : k % (2 * mh) = k - JJ * (2 * mh) := mod_eq_sub_of_between hk hk2
        rcases Nat.lt_or_ge k (JJ * (2 * mh) + mh) with hk3 | hk3
        · have c1 : JJ * (2 * mh) ≤ k ∧ k < JJ * (2 * mh) + mh := by omega
          rw [if_pos c1]
          have r1 : prev.getD k dflt = res.getD k dflt := by
            rw [ih hJJ' k, if_neg (by omega : ¬ k < JJ * (2 * mh))]
          have r2 : prev.getD (k + mh) dflt = res.getD (k + mh) dflt := by
            rw [ih hJJ' (k + mh), if_neg (by omega : ¬ k + mh < JJ * (2 * mh))]
          have c2 : k < (JJ + 1) * (2 * mh) := hk2
          have c3 : k % (2 * mh) < mh := by omega
          rw [r1, r2, if_pos c2, if_pos c3, hmod]
        · have c1 : ¬(JJ * (2 * mh) ≤ k ∧ k < JJ * (2 * mh) + mh) := by omega
          have c2 : JJ * (2 * mh) + mh ≤ k ∧ k < JJ * (2 * mh) + mh + mh := by omega
          rw [if_neg c1, if_pos c2]
          have r1 : prev.getD (k - mh) dflt = res.getD (k - mh) dflt := by
            rw [ih hJJ' (k - mh), if_neg (by omega : ¬ k - mh < JJ * (2 * mh))]
          have r2 : prev.getD k dflt = res.getD k dflt := by
            rw [ih hJJ' k, if_neg (by omega : ¬ k < JJ * (2 * mh))]
          have c3 : k < (JJ + 1) * (2 * mh) := hk2
          have c4 : ¬ k % (2 * mh) < mh := by omega
          have e1 : k - (JJ * (2 * mh) + mh) = k % (2 * mh) - mh := by omega
          rw [r1, r2, if_pos c3, if_neg c4, e1]
      · have c1 : ¬(JJ * (2 * mh) ≤ k ∧ k < JJ * (2 * mh) + mh) := by omega
        have c2 : ¬(JJ * (2 * mh) + mh ≤ k ∧ k < JJ * (2 * mh) + mh + mh) := by omega
        have c3 : ¬ k < (JJ + 1) * (2 * mh) := by omega
        rw [if_neg c1, if_neg c2, ih hJJ' k, if_neg (by omega : ¬ k < JJ * (2 * mh)),
          if_neg c3]

/-! ### The butterfly network as a function on `ℕ → R`

`stageFn V L logm` is the pointwise description of stage `logm` of the
iterated transform of length `2^L`; `nttFn` is the whole network
(bit-reversal, then stages `1, …, L`), with `V t` standing for the
even-index twiddle `rou[2*t]`. -/

theorem add_half_lt {k mh N : ℕ} (hmh : 0 < mh) (hdvd : 2 * mh ∣ N) (hk : k < N)
    (hr : k % (2 * mh) < mh) : k + mh < N := by
  obtain ⟨c, rfl⟩ := hdvd
  have h0 : 0 < 2 * mh := by omega
  have hq : k / (2 * mh) < c := by
    rw [Nat.div_lt_iff_lt_mul h0]
    have : c * (2 * mh) = 2 * mh * c := by ring
    omega
  have hqm : (k / (2 * mh) + 1) * (2 * mh) ≤ c * (2 * mh) := Nat.mul_le_mul_right _ hq
  have hdm := Nat.div_add_mod k (2 * mh)
  have hexp : (k / (2 * mh) + 1) * (2 * mh) = (2 * mh) * (k / (2 * mh)) + 2 * mh := by
    ring
  have hcm : c * (2 * mh) = 2 * mh * c := by ring
  omega

theorem stageFn_congr {R : Type} [CommRing R] (V : ℕ → R) (L logm : ℕ) (x y : ℕ → R)
    (hlogm : 1 ≤ logm) (hL : logm ≤ L) (hxy : ∀ p < 2^L, x p = y p) :
    ∀ k < 2^L, stageFn V L logm x k = stageFn V L logm y k := by
  intro k hk
  have hmh : 0 < 2^(logm - 1) := Nat.two_pow_pos _
  have hm : 2^logm = 2 * 2^(logm - 1) := by
    obtain ⟨l, rfl⟩ : ∃ l, logm = l + 1 := ⟨logm - 1, by omega⟩
    simp [pow_succ]
    ring
  have hdvd : 2^logm ∣ 2^L := pow_dvd_pow 2 hL
  unfold stageFn
  rcases Nat.lt_or_ge (k % 2^logm) (2^(logm - 1)) with hr | hr
  · have h1 : k + 2^(logm - 1) < 2^L := by
      apply add_half_lt hmh (hm ▸ hdvd) hk
      rw [← hm]; exact hr
    rw [if_pos hr, if_pos hr, hxy k hk, hxy _ h1]
  · have h1 : k - 2^(logm - 1) < 2^L := by omega
    rw [if_neg (by omega), if_neg (by omega), hxy k hk, hxy _ h1]

theorem ceil_div_eq_div {n m : ℕ} (hm : 0 < m) (hdvd : m ∣ n) :
    (n + m - 1) / m = n / m := by
  obtain ⟨q, rfl⟩ := hdvd
  have h1 : m * q + m - 1 = m - 1 + m * q := by omega
  rw [h1, Nat.add_mul_div_left _ _ hm, Nat.div_eq_of_lt (by omega), Nat.zero_add,
    Nat.mul_div_cancel_left _ hm]

theorem nttStageList_length (a : ℤ) (rou : List ℤ) (L logm n : ℕ) (res : List ℤ) :
    (nttStageList a rou L logm n res).length = res.length := by
  unfold nttStageList
  generalize List.range ((n + 2^logm - 1) / 2^logm) = bl
  induction bl generalizing res with
  | nil => rfl
  | cons b bl ih =>
    simp only [List.foldl_cons]
    rw [ih]
    generalize List.range (2^(logm - 1)) = il
    induction il generalizing res with
    | nil => rfl
    | cons i il ih2 => simp only [List.foldl_cons]; rw [ih2]; simp

theorem nttStageList_getD (a : ℤ) (rou : List ℤ) (L lm : ℕ) (res : List ℤ)
    (hlen : res.length = 2^L) (hlm : lm < L) (k : ℕ) :
    (nttStageList a rou L (lm + 1) (2^L) res).getD k 0 =
      if k < 2^L then
        (if k % 2^(lm+1) < 2^lm then
          (res.getD k 0 + (rou.getD ((k % 2^(lm+1)) <<< (1 + L - (lm+1))) 0 *
            res.getD (k + 2^lm) 0) % a) % a
        else
          (res.getD (k - 2^lm) 0 - (rou.getD ((k % 2^(lm+1) - 2^lm) <<< (1 + L - (lm+1))) 0 *
            res.getD k 0) % a) % a)
      else res.getD k 0 := by
  have h2 : (2:ℕ)^(lm+1) = 2 * 2^lm := by rw [pow_succ]; ring
  have hpos : 0 < (2:ℕ)^lm := Nat.two_pow_pos lm
  have hdvd : (2:ℕ)^(lm+1) ∣ 2^L := pow_dvd_pow 2 hlm
  have hdvd2 : 2 * 2^lm ∣ 2^L := h2 ▸ hdvd
  have hnb : (2^L + (2 * 2^lm) - 1) / (2 * 2^lm) = 2^L / (2 * 2^lm) :=
    ceil_div_eq_div (by omega) hdvd2
  have hnbm : 2^L / (2 * 2^lm) * (2 * 2^lm) = 2^L := Nat.div_mul_cancel hdvd2
  have hshape : nttStageList a rou L (lm + 1) (2^L) res =
      (List.range (2^L / (2 * 2^lm))).foldl
        (fun r jj => (List.range (2^lm)).foldl
          (bflyStep
            (fun i u v => (u + (rou.getD (i <<< (1 + L - (lm+1))) 0 * v) % a) % a)
            (fun i u v => (u - (rou.getD (i <<< (1 + L - (lm+1))) 0 * v) % a) % a)
            0 (jj * (2 * 2^lm)) (2^lm)) r) res := by
    simp only [nttStageList, bflyStep, Nat.add_sub_cancel, h2, hnb]
    rfl
  rw [hshape,
    bflyBlocks_getD _ _ 0 (2^lm) res hpos (2^L / (2 * 2^lm)) (by rw [hnbm, hlen])
      (2^L / (2 * 2^lm)) (le_refl _) k]
  rw [hnbm, h2]

theorem getD_map_range {α : Type} (f : ℕ → α) (n k : ℕ) (d : α) (hk : k < n) :
    ((List.range n).map f).getD k d = f k := by
  simp [List.getD_eq_getElem?_getD, List.getElem?_range hk]

theorem ringHom_emod {R : Type} [CommRing R] (φ : ℤ →+* R) (a : ℤ) (hφ : φ a = 0)
    (z : ℤ) : φ (z % a) = φ z := by
  have h : z % a = z - a * (z / a) := by rw [Int.emod_def]
  rw [h, map_sub, map_mul, hφ, zero_mul, sub_zero]

theorem nttFold_length (a : ℤ) (rou : List ℤ) (L n : ℕ) (l : List ℕ) (res : List ℤ) :
    ((l.foldl (fun res lm => nttStageList a rou L (lm + 1) n res) res)).length =
      res.length := by
  induction l generalizing res with
  | nil => rfl
  | cons b bl ih => simp only [List.foldl_cons]; rw [ih, nttStageList_length]

theorem nttList_length (ctx : NTTCtx) (coeffs rou : List ℤ) :
    (nttList ctx coeffs rou).length = coeffs.length := by
  unfold nttList
  rw [nttFold_length]
  simp

theorem nttStages_succ {R : Type} [CommRing R] (V : ℕ → R) (L J : ℕ) (x : ℕ → R) :
    nttStages V L (J + 1) x = stageFn V L (J + 1) (nttStages V L J x) := by
  unfold nttStages
  rw [List.range_succ, List.foldl_append]
  rfl

theorem nttList_bridge {R : Type} [CommRing R] (φ : ℤ →+* R) (ctx : NTTCtx)
    (coeffs rou : List ℤ) (L : ℕ) (hφ : φ ctx.coeff_modulus = 0)
    (hn : coeffs.length = 2 ^ L)
    (hrb : ∀ i < 2 ^ L, ctx.reversed_bits.getD i 0 = reverseBits i L) :
    ∀ k < 2 ^ L, φ ((nttList ctx coeffs rou).getD k 0) =
      nttFn (fun t => φ (rou.getD (2 * t) 0)) L (fun j => φ (coeffs.getD j 0)) k := by
  have hmain : ∀ J ≤ L,
      (((List.range J).foldl
        (fun res lm => nttStageList ctx.coeff_modulus rou L (lm + 1) (2 ^ L) res)
        ((List.range (2 ^ L)).map
          (fun i => coeffs.getD (ctx.reversed_bits.getD i 0) 0))).length = 2 ^ L) ∧
      (∀ k < 2 ^ L,
        φ (((List.range J).foldl
          (fun res lm => nttStageList ctx.coeff_modulus rou L (lm + 1) (2 ^ L) res)
          ((List.range (2 ^ L)).map
            (fun i => coeffs.getD (ctx.reversed_bits.getD i 0) 0))).getD k 0) =
        nttStages (fun t => φ (rou.getD (2 * t) 0)) L J
          (bitrevFn L (fun j => φ (coeffs.getD j 0))) k) := by
    intro J
    induction J with
    | zero =>
      intro _
      constructor
      · simp
      · intro k hk
        simp only [List.range_zero, List.foldl_nil]
        rw [getD_map_range _ _ _ _ hk, hrb k hk]
        rfl
    | succ J ih =>
      intro hJ
      obtain ⟨ihlen, ihval⟩ := ih (by omega)
      constructor
      · rw [List.range_succ, List.foldl_append]
        simp only [List.foldl_cons, List.foldl_nil]
        rw [nttStageList_length]
        exact ihlen
      · intro k hk
        rw [List.range_succ, List.foldl_append]
        simp only [List.foldl_cons, List.foldl_nil]
        rw [nttStageList_getD _ _ _ _ _ ihlen (by omega) k, if_pos hk]
        rw [nttStages_succ]
        have hLJ : 1 + L - (J + 1) = L - J := by omega
        have hsm : (2:ℕ) ^ (L - J) = 2 * 2 ^ (L - (J + 1)) := by
          have : L - J = (L - (J + 1)) + 1 := by omega
          rw [this, pow_succ]; ring
        have hVr : ∀ i : ℕ,
            φ (rou.getD (i <<< (1 + L - (J + 1))) 0) =
            (fun t => φ (rou.getD (2 * t) 0)) (i * 2 ^ (L - (J + 1))) := by
          intro i
          have : i <<< (1 + L - (J + 1)) = 2 * (i * 2 ^ (L - (J + 1))) := by
            rw [Nat.shiftLeft_eq, hLJ, hsm]; ring
          rw [this]
        have hcongr := stageFn_congr (fun t => φ (rou.getD (2 * t) 0)) L (J + 1)
          (fun p => φ (((List.range J).foldl
            (fun res lm => nttStageList ctx.coeff_modulus rou L (lm + 1) (2 ^ L) res)
            ((List.range (2 ^ L)).map
              (fun i => coeffs.getD (ctx.reversed_bits.getD i 0) 0))).getD p 0))
          (nttStages (fun t => φ (rou.getD (2 * t) 0)) L J
            (bitrevFn L (fun j => φ (coeffs.getD j 0))))
          (by omega) (by omega) ihval k hk
        rw [← hcongr]
        unfold stageFn
        simp only [Nat.add_sub_cancel]
        rcases Nat.lt_or_ge (k % 2 ^ (J + 1)) (2 ^ J) with hr | hr
        · rw [if_pos hr, if_pos hr]
          rw [ringHom_emod φ _ hφ, map_add, ringHom_emod φ _ hφ, map_mul, hVr]
        · rw [if_neg (by omega), if_neg (by omega)]
          rw [ringHom_emod φ _ hφ, map_sub, ringHom_emod φ _ hφ, map_mul, hVr]
  intro k hk
  have hlog : log2E (2 ^ L) = L := log2E_two_pow
  unfold nttList nttFn
  simp only [hn, hlog]
  exact (hmain L (le_refl L)).2 k hk

/-! ### Recursive structure of the butterfly network -/

theorem glue_lo {R : Type} {h k : ℕ} (x0 x1 : ℕ → R) (hk : k < h) :
    glue h x0 x1 k = x0 k := if_pos hk

theorem glue_hi {R : Type} {h k : ℕ} (x0 x1 : ℕ → R) (hk : ¬ k < h) :
    glue h x0 x1 k = x1 (k - h) := if_neg hk

theorem stageFn_lo {R : Type} [CommRing R] (V : ℕ → R) (L logm : ℕ) (x : ℕ → R)
    {k : ℕ} (hr : k % 2 ^ logm < 2 ^ (logm - 1)) :
    stageFn V L logm x k =
      x k + V ((k % 2 ^ logm) * 2 ^ (L - logm)) * x (k + 2 ^ (logm - 1)) := by
  simp only [stageFn, if_pos hr]

theorem stageFn_hi {R : Type} [CommRing R] (V : ℕ → R) (L logm : ℕ) (x : ℕ → R)
    {k : ℕ} (hr : ¬ k % 2 ^ logm < 2 ^ (logm - 1)) :
    stageFn V L logm x k =
      x (k - 2 ^ (logm - 1)) -
        V ((k % 2 ^ logm - 2 ^ (logm - 1)) * 2 ^ (L - logm)) * x k := by
  simp only [stageFn, if_neg hr]

theorem stageFn_glue {R : Type} [CommRing R] (V : ℕ → R) (L logm : ℕ) (x0 x1 : ℕ → R)
    (hlogm : 1 ≤ logm) (hL : logm ≤ L) :
    ∀ k < 2 ^ (L + 1),
      stageFn V (L + 1) logm (glue (2 ^ L) x0 x1) k =
        glue (2 ^ L) (stageFn (fun t => V (2 * t)) L logm x0)
          (stageFn (fun t => V (2 * t)) L logm x1) k := by
  intro k hk
  have hmh : 0 < 2 ^ (logm - 1) := Nat.two_pow_pos _
  have hm : (2:ℕ) ^ logm = 2 * 2 ^ (logm - 1) := by
    obtain ⟨l, rfl⟩ : ∃ l, logm = l + 1 := ⟨logm - 1, by omega⟩
    simp [pow_succ]; ring
  have hdvd : (2:ℕ) ^ logm ∣ 2 ^ L := pow_dvd_pow 2 hL
  have hdvd2 : 2 * 2 ^ (logm - 1) ∣ 2 ^ L := hm ▸ hdvd
  have hLpow : (2:ℕ) ^ (L + 1) = 2 ^ L + 2 ^ L := by rw [pow_succ]; ring
  have htw : ∀ i : ℕ, V (i * 2 ^ (L + 1 - logm)) = V (2 * (i * 2 ^ (L - logm))) := by
    intro i
    have h : i * 2 ^ (L + 1 - logm) = 2 * (i * 2 ^ (L - logm)) := by
      have h1 : L + 1 - logm = (L - logm) + 1 := by omega
      rw [h1, pow_succ]; ring
    rw [h]
  rcases Nat.lt_or_ge k (2 ^ L) with hkL | hkL
  · rw [glue_lo _ _ hkL]
    rcases Nat.lt_or_ge (k % 2 ^ logm) (2 ^ (logm - 1)) with hr | hr
    · have hk1 : k + 2 ^ (logm - 1) < 2 ^ L :=
        add_half_lt hmh hdvd2 hkL (by rw [← hm]; exact hr)
      rw [stageFn_lo V (L + 1) logm _ hr, stageFn_lo (fun t => V (2 * t)) L logm x0 hr,
        glue_lo _ _ hkL, glue_lo _ _ hk1, htw]
    · have hk1 : k - 2 ^ (logm - 1) < 2 ^ L := by omega
      rw [stageFn_hi V (L + 1) logm _ (by omega), stageFn_hi (fun t => V (2 * t)) L logm x0
        (by omega), glue_lo _ _ hkL, glue_lo _ _ hk1, htw]
  · rw [glue_hi _ _ (by omega)]
    obtain ⟨k1, rfl⟩ : ∃ k1, k = 2 ^ L + k1 := ⟨k - 2 ^ L, by omega⟩
    have hk1L : k1 < 2 ^ L := by omega
    have hz : (2:ℕ) ^ L % 2 ^ logm = 0 := by
      obtain ⟨c, hc⟩ := hdvd
      rw [hc, Nat.mul_mod_right]
    have hmod : (2 ^ L + k1) % 2 ^ logm = k1 % 2 ^ logm := by
      rw [Nat.add_mod, hz, Nat.zero_add, Nat.mod_mod_of_dvd _ (dvd_refl _)]
    have hsub : 2 ^ L + k1 - 2 ^ L = k1 := by omega
    rw [hsub]
    rcases Nat.lt_or_ge (k1 % 2 ^ logm) (2 ^ (logm - 1)) with hr | hr
    · have hadd : 2 ^ L + k1 + 2 ^ (logm - 1) = 2 ^ L + (k1 + 2 ^ (logm - 1)) := by omega
      rw [stageFn_lo V (L + 1) logm _ (by rw [hmod]; exact hr),
        stageFn_lo (fun t => V (2 * t)) L logm x1 hr,
        glue_hi _ _ (by omega : ¬ 2 ^ L + k1 < 2 ^ L), hadd,
        glue_hi _ _ (by omega : ¬ 2 ^ L + (k1 + 2 ^ (logm - 1)) < 2 ^ L),
        hsub, htw, hmod]
      have e2 : 2 ^ L + (k1 + 2 ^ (logm - 1)) - 2 ^ L = k1 + 2 ^ (logm - 1) := by omega
      rw [e2]
    · have hge : 2 ^ (logm - 1) ≤ k1 := by
        have := Nat.mod_le k1 (2 ^ logm)
        omega
      have hsub2 : 2 ^ L + k1 - 2 ^ (logm - 1) = 2 ^ L + (k1 - 2 ^ (logm - 1)) := by omega
      rw [stageFn_hi V (L + 1) logm _ (by rw [hmod]; omega),
        stageFn_hi (fun t => V (2 * t)) L logm x1 (by omega), hsub2,
        glue_hi _ _ (by omega : ¬ 2 ^ L + (k1 - 2 ^ (logm - 1)) < 2 ^ L),
        glue_hi _ _ (by omega : ¬ 2 ^ L + k1 < 2 ^ L), hsub, htw, hmod]
      have e2 : 2 ^ L + (k1 - 2 ^ (logm - 1)) - 2 ^ L = k1 - 2 ^ (logm - 1) := by omega
      rw [e2]

theorem bitrevFn_glue {R : Type} (L : ℕ) (x : ℕ → R) :
    ∀ k < 2 ^ (L + 1),
      bitrevFn (L + 1) x k =
        glue (2 ^ L) (bitrevFn L (fun j => x (2 * j)))
          (bitrevFn L (fun j => x (2 * j + 1))) k := by
  intro k hk
  have hLpow : (2:ℕ) ^ (L + 1) = 2 ^ L + 2 ^ L := by rw [pow_succ]; ring
  rcases Nat.lt_or_ge k (2 ^ L) with hkL | hkL
  · rw [glue_lo _ _ hkL]
    show x (reverseBits k (L + 1)) = x (2 * reverseBits k L)
    rw [reverseBits_low k L hkL]
  · rw [glue_hi _ _ (by omega)]
    obtain ⟨k1, rfl⟩ : ∃ k1, k = 2 ^ L + k1 := ⟨k - 2 ^ L, by omega⟩
    have hk1 : k1 < 2 ^ L := by omega
    have hsub : 2 ^ L + k1 - 2 ^ L = k1 := by omega
    rw [hsub]
    show x (reverseBits (2 ^ L + k1) (L + 1)) = x (2 * reverseBits k1 L + 1)
    rw [reverseBits_high k1 L hk1]

theorem nttStages_congr {R : Type} [CommRing R] (V : ℕ → R) (L : ℕ) (x y : ℕ → R) :
    ∀ J ≤ L, (∀ p < 2 ^ L, x p = y p) →
      ∀ k < 2 ^ L, nttStages V L J x k = nttStages V L J y k := by
  intro J
  induction J with
  | zero => intro _ h k hk; exact h k hk
  | succ J ih =>
    intro hJ h k hk
    rw [nttStages_succ, nttStages_succ]
    exact stageFn_congr V L (J + 1) _ _ (by omega) (by omega)
      (ih (by omega) h) k hk

theorem nttStages_glue {R : Type} [CommRing R] (V : ℕ → R) (L : ℕ) (x0 x1 : ℕ → R) :
    ∀ J ≤ L, ∀ k < 2 ^ (L + 1),
      nttStages V (L + 1) J (glue (2 ^ L) x0 x1) k =
        glue (2 ^ L) (nttStages (fun t => V (2 * t)) L J x0)
          (nttStages (fun t => V (2 * t)) L J x1) k := by
  intro J
  induction J with
  | zero => intro _ k _; rfl
  | succ J ih =>
    intro hJ k hk
    rw [nttStages_succ]
    have h1 := stageFn_congr V (L + 1) (J + 1)
      (nttStages V (L + 1) J (glue (2 ^ L) x0 x1))
      (glue (2 ^ L) (nttStages (fun t => V (2 * t)) L J x0)
        (nttStages (fun t => V (2 * t)) L J x1))
      (by omega) (by omega) (ih (by omega)) k hk
    rw [h1, stageFn_glue V L (J + 1) _ _ (by omega) (by omega) k hk]
    rcases Nat.lt_or_ge k (2 ^ L) with hkL | hkL
    · rw [glue_lo _ _ hkL, glue_lo _ _ hkL, nttStages_succ]
    · rw [glue_hi _ _ (by omega), glue_hi _ _ (by omega), nttStages_succ]

theorem nttFn_split {R : Type} [CommRing R] (V : ℕ → R) (L : ℕ) (x : ℕ → R) :
    ∀ k < 2 ^ (L + 1),
      nttFn V (L + 1) x k =
        if k < 2 ^ L then
          nttFn (fun t => V (2 * t)) L (fun j => x (2 * j)) k +
            V k * nttFn (fun t => V (2 * t)) L (fun j => x (2 * j + 1)) k
        else
          nttFn (fun t => V (2 * t)) L (fun j => x (2 * j)) (k - 2 ^ L) -
            V (k - 2 ^ L) * nttFn (fun t => V (2 * t)) L (fun j => x (2 * j + 1)) (k - 2 ^ L) := by
  intro k hk
  have hLpow : (2:ℕ) ^ (L + 1) = 2 ^ L + 2 ^ L := by rw [pow_succ]; ring
  have hmod : k % 2 ^ (L + 1) = k := Nat.mod_eq_of_lt hk
  have hmh : (2:ℕ) ^ (L + 1 - 1) = 2 ^ L := by simp
  have hzero : (2:ℕ) ^ (L + 1 - (L + 1)) = 1 := by simp
  show nttStages V (L + 1) (L + 1) (bitrevFn (L + 1) x) k = _
  rw [nttStages_succ]
  have hinner : ∀ p < 2 ^ (L + 1),
      nttStages V (L + 1) L (bitrevFn (L + 1) x) p =
        glue (2 ^ L) (nttStages (fun t => V (2 * t)) L L (bitrevFn L (fun j => x (2 * j))))
          (nttStages (fun t => V (2 * t)) L L (bitrevFn L (fun j => x (2 * j + 1)))) p := by
    intro p hp
    rw [nttStages_congr V (L + 1) _ _ L (by omega) (bitrevFn_glue L x) p hp]
    exact nttStages_glue V L _ _ L (le_refl L) p hp
  rw [stageFn_congr V (L + 1) (L + 1) _ _ (by omega) (le_refl (L + 1)) hinner k hk]
  rcases Nat.lt_or_ge k (2 ^ L) with hkL | hkL
  · rw [if_pos hkL, stageFn_lo V (L + 1) (L + 1) _ (by rw [hmod, hmh]; exact hkL)]
    rw [hmod, hmh, hzero, Nat.mul_one]
    rw [glue_lo _ _ hkL, glue_hi _ _ (by omega : ¬ k + 2 ^ L < 2 ^ L)]
    have e1 : k + 2 ^ L - 2 ^ L = k := by omega
    rw [e1]
    rfl
  · rw [if_neg (by omega), stageFn_hi V (L + 1) (L + 1) _ (by rw [hmod, hmh]; omega)]
    rw [hmod, hmh, hzero, Nat.mul_one]
    rw [glue_lo _ _ (by omega : k - 2 ^ L < 2 ^ L), glue_hi _ _ (by omega : ¬ k < 2 ^ L)]
    rfl

/-! ### Closed form of the network: the generalized transform matrix -/

theorem sum_range_double {M : Type} [AddCommMonoid M] (N : ℕ) (f : ℕ → M) :
    ∑ j ∈ Finset.range (2 * N), f j =
      (∑ j ∈ Finset.range N, f (2 * j)) + ∑ j ∈ Finset.range N, f (2 * j + 1) := by
  induction N with
  | zero => simp
  | succ N ih =>
    have h : 2 * (N + 1) = (2 * N + 1) + 1 := by omega
    rw [h, Finset.sum_range_succ, Finset.sum_range_succ, Finset.sum_range_succ,
      Finset.sum_range_succ, ih]
    abel

theorem testBit_double_zero (j : ℕ) : (2 * j).testBit 0 = false := by
  rw [Nat.testBit_zero]
  simp [Nat.mul_mod_right]

theorem testBit_double_add_one_zero (j : ℕ) : (2 * j + 1).testBit 0 = true := by
  rw [Nat.testBit_zero]
  simp [Nat.mul_add_mod]

theorem testBit_double (j r : ℕ) : (2 * j).testBit (r + 1) = j.testBit r := by
  rw [Nat.testBit_succ, Nat.mul_div_cancel_left _ (by norm_num : 0 < 2)]

theorem testBit_double_add_one (j r : ℕ) : (2 * j + 1).testBit (r + 1) = j.testBit r := by
  rw [Nat.testBit_succ, Nat.mul_add_div (by norm_num : 0 < 2)]
  norm_num

theorem sW_double (L k j' : ℕ) : sW (L + 1) k (2 * j') = sW L (k % 2 ^ L) j' := by
  unfold sW
  rw [Finset.sum_range_succ']
  simp only [testBit_double, testBit_double_zero, Bool.toNat_false, Nat.zero_mul,
    Nat.add_zero]
  apply Finset.sum_congr rfl
  intro r hr
  have hr' : r < L := Finset.mem_range.mp hr
  have he : L + 1 - 1 - (r + 1) = L - 1 - r := by omega
  have hb : (k % 2 ^ L).testBit (L - 1 - r) = k.testBit (L - 1 - r) := by
    rw [Nat.testBit_mod_two_pow]
    simp [Nat.lt_of_lt_of_le (by omega : L - 1 - r < L) (le_refl L)]
  rw [he, hb]

theorem sW_double_add_one (L k j' : ℕ) :
    sW (L + 1) k (2 * j' + 1) = sW L (k % 2 ^ L) j' + (k.testBit L).toNat := by
  unfold sW
  rw [Finset.sum_range_succ']
  simp only [testBit_double_add_one, testBit_double_add_one_zero, Bool.toNat_true,
    Nat.one_mul]
  congr 1
  · apply Finset.sum_congr rfl
    intro r hr
    have hr' : r < L := Finset.mem_range.mp hr
    have he : L + 1 - 1 - (r + 1) = L - 1 - r := by omega
    have hb : (k % 2 ^ L).testBit (L - 1 - r) = k.testBit (L - 1 - r) := by
      rw [Nat.testBit_mod_two_pow]
      simp [(by omega : L - 1 - r < L)]
    rw [he, hb]

theorem eW_double (L k j' : ℕ) : eW (L + 1) k (2 * j') = 2 * eW L (k % 2 ^ L) j' := by
  unfold eW
  rw [Finset.sum_range_succ']
  simp only [testBit_double, testBit_double_zero, Bool.toNat_false, Nat.zero_mul,
    Nat.add_zero]
  rw [Finset.mul_sum]
  apply Finset.sum_congr rfl
  intro r hr
  have hr' : r < L := Finset.mem_range.mp hr
  have he : L + 1 - 1 - (r + 1) = L - 1 - r := by omega
  have hm : k % 2 ^ L % 2 ^ (L - 1 - r) = k % 2 ^ (L - 1 - r) :=
    Nat.mod_mod_of_dvd k (pow_dvd_pow 2 (by omega))
  rw [he, hm, pow_succ]
  ring

theorem eW_double_add_one (L k j' : ℕ) :
    eW (L + 1) k (2 * j' + 1) = 2 * eW L (k % 2 ^ L) j' + k % 2 ^ L := by
  unfold eW
  rw [Finset.sum_range_succ']
  simp only [testBit_double_add_one, testBit_double_add_one_zero, Bool.toNat_true,
    Nat.one_mul, pow_zero]
  congr 1
  · rw [Finset.mul_sum]
    apply Finset.sum_congr rfl
    intro r hr
    have hr' : r < L := Finset.mem_range.mp hr
    have he : L + 1 - 1 - (r + 1) = L - 1 - r := by omega
    have hm : k % 2 ^ L % 2 ^ (L - 1 - r) = k % 2 ^ (L - 1 - r) :=
      Nat.mod_mod_of_dvd k (pow_dvd_pow 2 (by omega))
    rw [he, hm, pow_succ]
    ring

theorem nttFn_eq_dftW {R : Type} [CommRing R] :
    ∀ (L : ℕ) (ω : R) (V : ℕ → R) (x : ℕ → R),
      (∀ t, 2 * t < 2 ^ L → V t = ω ^ t) → ∀ k < 2 ^ L, nttFn V L x k = dftW ω L x k := by
  intro L
  induction L with
  | zero =>
    intro ω V x hV k hk
    have hk0 : k = 0 := by
      have : (2:ℕ) ^ 0 = 1 := rfl
      omega
    subst hk0
    show (bitrevFn 0 x) 0 = _
    simp [dftW, sW, eW, bitrevFn, reverseBits]
  | succ L ih =>
    intro ω V x hV k hk
    have h2 : (2:ℕ) ^ (L + 1) = 2 * 2 ^ L := by rw [pow_succ]; ring
    rw [nttFn_split V L x k hk]
    have hV2 : ∀ t, 2 * t < 2 ^ L → V (2 * t) = (ω ^ 2) ^ t := by
      intro t ht
      rw [hV (2 * t) (by omega), ← pow_mul]
    have hAe := ih (ω ^ 2) (fun t => V (2 * t)) (fun j => x (2 * j)) hV2
    have hAo := ih (ω ^ 2) (fun t => V (2 * t)) (fun j => x (2 * j + 1)) hV2
    have hdft : dftW ω (L + 1) x k =
        dftW (ω ^ 2) L (fun j => x (2 * j)) (k % 2 ^ L) +
        (-1 : R) ^ ((k.testBit L).toNat) * ω ^ (k % 2 ^ L) *
          dftW (ω ^ 2) L (fun j => x (2 * j + 1)) (k % 2 ^ L) := by
      unfold dftW
      rw [h2, sum_range_double]
      congr 1
      · apply Finset.sum_congr rfl
        intro j' _
        rw [sW_double, eW_double, pow_mul]
      · rw [Finset.mul_sum]
        apply Finset.sum_congr rfl
        intro j' _
        rw [sW_double_add_one, eW_double_add_one, pow_add, pow_add, pow_mul]
        ring
    rcases Nat.lt_or_ge k (2 ^ L) with hkL | hkL
    · rw [if_pos hkL, hdft]
      have hbL : k.testBit L = false := Nat.testBit_lt_two_pow hkL
      have hkmod : k % 2 ^ L = k := Nat.mod_eq_of_lt hkL
      rw [hbL, hkmod, hAe k hkL, hAo k hkL, hV k (by omega)]
      simp
    · rw [if_neg (by omega), hdft]
      have hbL : k.testBit L = true := testBit_of_mem_Ico hkL (by omega)
      have hkmod : k % 2 ^ L = k - 2 ^ L := by
        have h := mod_eq_sub_of_between (k := k) (q := 1) (m := 2 ^ L)
          (by omega) (by omega)
        simpa using h
      rw [hbL, hkmod, hAe _ (by omega), hAo _ (by omega), hV (k - 2 ^ L) (by omega)]
      simp
      ring

theorem sum_prod_bits {R : Type} [CommRing R] :
    ∀ (L : ℕ) (c : ℕ → R),
      ∑ k ∈ Finset.range (2 ^ L), ∏ t ∈ Finset.range L, (c t) ^ ((k.testBit t).toNat) =
        ∏ t ∈ Finset.range L, (1 + c t) := by
  intro L
  induction L with
  | zero => intro c; simp
  | succ L ih =>
    intro c
    have h2 : (2:ℕ) ^ (L + 1) = 2 * 2 ^ L := by rw [pow_succ]; ring
    rw [h2, sum_range_double]
    have he : ∀ k : ℕ, ∏ t ∈ Finset.range (L + 1), (c t) ^ (((2 * k).testBit t).toNat) =
        ∏ t ∈ Finset.range L, (c (t + 1)) ^ ((k.testBit t).toNat) := by
      intro k
      rw [Finset.prod_range_succ']
      simp [testBit_double, testBit_double_zero]
    have ho : ∀ k : ℕ, ∏ t ∈ Finset.range (L + 1), (c t) ^ (((2 * k + 1).testBit t).toNat) =
        (∏ t ∈ Finset.range L, (c (t + 1)) ^ ((k.testBit t).toNat)) * c 0 := by
      intro k
      rw [Finset.prod_range_succ']
      simp [testBit_double_add_one, testBit_double_add_one_zero, Nat.mul_add_mod]
    rw [Finset.sum_congr rfl (fun k _ => he k), Finset.sum_congr rfl (fun k _ => ho k),
      ← Finset.sum_mul, ih (fun t => c (t + 1)), Finset.prod_range_succ']
    ring

theorem mod_two_pow_sum (q k : ℕ) :
    k % 2 ^ q = ∑ s ∈ Finset.range q, (k.testBit s).toNat * 2 ^ s := by
  induction q with
  | zero => simp [Nat.mod_one]
  | succ q ih =>
    rw [Nat.mod_pow_succ, Finset.sum_range_succ, ih]
    have hb : (k.testBit q).toNat = k / 2 ^ q % 2 := by
      rw [Nat.testBit_to_div_mod]
      rcases Nat.mod_two_eq_zero_or_one (k / 2 ^ q) with h | h <;> simp [h]
    rw [hb]
    ring

theorem sum_range_ite_lt {M : Type} [AddCommMonoid M] (c L : ℕ) (hc : c ≤ L) (g : ℕ → M) :
    ∑ s ∈ Finset.range L, (if s < c then g s else 0) = ∑ s ∈ Finset.range c, g s := by
  rw [← Finset.sum_subset (Finset.range_subset.2 hc)
    (fun x _ hx => if_neg (by simpa using hx))]
  apply Finset.sum_congr rfl
  intro s hs
  rw [if_pos (Finset.mem_range.mp hs)]

theorem eW_eq_double (L k j : ℕ) :
    eW L k j = ∑ r ∈ Finset.range L, ∑ s ∈ Finset.range L,
      (if r + s + 1 < L then (j.testBit r).toNat * (k.testBit s).toNat * 2 ^ (r + s)
       else 0) := by
  unfold eW
  apply Finset.sum_congr rfl
  intro r hr
  have hr' : r < L := Finset.mem_range.mp hr
  rw [mod_two_pow_sum (L - 1 - r) k, Finset.mul_sum]
  rw [← sum_range_ite_lt (L - 1 - r) L (by omega)
    (fun s => (j.testBit r).toNat * 2 ^ r * ((k.testBit s).toNat * 2 ^ s))]
  apply Finset.sum_congr rfl
  intro s _
  rcases Nat.lt_or_ge (r + s + 1) L with h | h
  · rw [if_pos (by omega : s < L - 1 - r), if_pos h, pow_add]
    ring
  · rw [if_neg (by omega : ¬ s < L - 1 - r), if_neg (by omega)]

theorem eW_symm (L k j : ℕ) : eW L k j = eW L j k := by
  rw [eW_eq_double, eW_eq_double, Finset.sum_comm]
  apply Finset.sum_congr rfl
  intro s _
  apply Finset.sum_congr rfl
  intro r _
  rcases Nat.lt_or_ge (r + s + 1) L with h | h
  · rw [if_pos (by omega : s + r + 1 < L), if_pos h]
    have : r + s = s + r := by omega
    rw [this]
    ring
  · rw [if_neg (by omega), if_neg (by omega)]

theorem sW_symm (L k j : ℕ) : sW L k j = sW L j k := by
  unfold sW
  rw [← Finset.sum_range_reflect]
  apply Finset.sum_congr rfl
  intro r hr
  have hr' : r < L := Finset.mem_range.mp hr
  have e1 : L - 1 - (L - 1 - r) = r := by omega
  rw [e1]
  ring

theorem dftW_kernel {R : Type} [CommRing R] (ω ω' : R) (hωω' : ω * ω' = 1)
    (L i j : ℕ) (hi : i < 2 ^ L) (hj : j < 2 ^ L) :
    ∑ k ∈ Finset.range (2 ^ L),
        ((-1 : R) ^ (sW L i k) * ω' ^ (eW L i k)) *
          ((-1 : R) ^ (sW L k j) * ω ^ (eW L k j)) =
      if i = j then (2 : R) ^ L else 0 := by
  have hsummand : ∀ k,
      ((-1 : R) ^ (sW L i k) * ω' ^ (eW L i k)) *
        ((-1 : R) ^ (sW L k j) * ω ^ (eW L k j)) =
      ∏ t ∈ Finset.range L,
        ((-1 : R) ^ ((i.testBit (L - 1 - t)).toNat + (j.testBit (L - 1 - t)).toNat) *
          (ω' ^ (2 ^ t * (i % 2 ^ (L - 1 - t))) * ω ^ (2 ^ t * (j % 2 ^ (L - 1 - t))))) ^
          ((k.testBit t).toNat) := by
    intro k
    rw [sW_symm L k j, eW_symm L k j]
    unfold sW eW
    rw [← Finset.prod_pow_eq_pow_sum, ← Finset.prod_pow_eq_pow_sum,
      ← Finset.prod_pow_eq_pow_sum, ← Finset.prod_pow_eq_pow_sum,
      ← Finset.prod_mul_distrib, ← Finset.prod_mul_distrib, ← Finset.prod_mul_distrib]
    apply Finset.prod_congr rfl
    intro r _
    ring
  rw [Finset.sum_congr rfl (fun k _ => hsummand k), sum_prod_bits L _]
  rcases eq_or_ne i j with rfl | hne
  · have hc : ∀ t ∈ Finset.range L,
        (1 : R) + ((-1 : R) ^ ((i.testBit (L - 1 - t)).toNat + (i.testBit (L - 1 - t)).toNat) *
          (ω' ^ (2 ^ t * (i % 2 ^ (L - 1 - t))) * ω ^ (2 ^ t * (i % 2 ^ (L - 1 - t))))) = 2 := by
      intro t _
      have h1 : ω' ^ (2 ^ t * (i % 2 ^ (L - 1 - t))) * ω ^ (2 ^ t * (i % 2 ^ (L - 1 - t))) =
          (1 : R) := by
        rw [← mul_pow, mul_comm ω', hωω', one_pow]
      have h2 : (-1 : R) ^ ((i.testBit (L - 1 - t)).toNat + (i.testBit (L - 1 - t)).toNat) =
          1 := by
        rcases i.testBit (L - 1 - t) with _ | _ <;> simp
      rw [h1, h2]
      ring
    rw [if_pos rfl, Finset.prod_congr rfl hc, Finset.prod_const, Finset.card_range]
  · rw [if_neg hne]
    have hex : ∃ p, i.testBit p ≠ j.testBit p := by
      by_contra hcon
      push_neg at hcon
      exact hne (Nat.eq_of_testBit_eq hcon)
    set p0 := Nat.find hex with hp0
    have hspec : i.testBit p0 ≠ j.testBit p0 := Nat.find_spec hex
    have hmin : ∀ m < p0, i.testBit m = j.testBit m := by
      intro m hm
      have := Nat.find_min hex hm
      simpa using this
    have hp0L : p0 < L := by
      by_contra hcon
      push_neg at hcon
      have h1 : i < 2 ^ p0 := lt_of_lt_of_le hi (Nat.pow_le_pow_right (by norm_num) hcon)
      have h2 : j < 2 ^ p0 := lt_of_lt_of_le hj (Nat.pow_le_pow_right (by norm_num) hcon)
      exact hspec (by rw [Nat.testBit_lt_two_pow h1, Nat.testBit_lt_two_pow h2])
    have ht0 : L - 1 - (L - 1 - p0) = p0 := by omega
    have himod : i % 2 ^ p0 = j % 2 ^ p0 := by
      apply Nat.eq_of_testBit_eq
      intro s
      rw [Nat.testBit_mod_two_pow, Nat.testBit_mod_two_pow]
      rcases Nat.lt_or_ge s p0 with hs | hs
      · rw [hmin s hs]
      · have hns : ¬ s < p0 := by omega
        simp [hns]
    apply Finset.prod_eq_zero (Finset.mem_range.mpr (by omega : L - 1 - p0 < L))
    rw [ht0]
    have h1 : ω' ^ (2 ^ (L - 1 - p0) * (i % 2 ^ p0)) * ω ^ (2 ^ (L - 1 - p0) * (j % 2 ^ p0)) =
        (1 : R) := by
      rw [himod, ← mul_pow, mul_comm ω', hωω', one_pow]
    have h2 : (-1 : R) ^ ((i.testBit p0).toNat + (j.testBit p0).toNat) = -1 := by
      rcases hbi : i.testBit p0 with _ | _ <;> rcases hbj : j.testBit p0 with _ | _ <;>
        simp_all
    rw [h1, h2]
    ring

theorem dftW_dftW {R : Type} [CommRing R] (ω ω' : R) (hωω' : ω * ω' = 1) (L : ℕ)
    (x : ℕ → R) (i : ℕ) (hi : i < 2 ^ L) :
    dftW ω' L (fun k => dftW ω L x k) i = (2 : R) ^ L * x i := by
  unfold dftW
  have hstep : ∀ k ∈ Finset.range (2 ^ L),
      (∑ j ∈ Finset.range (2 ^ L), x j * (-1 : R) ^ (sW L k j) * ω ^ (eW L k j)) *
          (-1 : R) ^ (sW L i k) * ω' ^ (eW L i k) =
        ∑ j ∈ Finset.range (2 ^ L),
          x j * (((-1 : R) ^ (sW L i k) * ω' ^ (eW L i k)) *
            ((-1 : R) ^ (sW L k j) * ω ^ (eW L k j))) := by
    intro k _
    rw [Finset.sum_mul, Finset.sum_mul]
    apply Finset.sum_congr rfl
    intro j _
    ring
  rw [Finset.sum_congr rfl hstep, Finset.sum_comm]
  have hj : ∀ j ∈ Finset.range (2 ^ L),
      (∑ k ∈ Finset.range (2 ^ L),
        x j * (((-1 : R) ^ (sW L i k) * ω' ^ (eW L i k)) *
          ((-1 : R) ^ (sW L k j) * ω ^ (eW L k j)))) =
      if i = j then x j * (2 : R) ^ L else 0 := by
    intro j hjm
    rw [← Finset.mul_sum, dftW_kernel ω ω' hωω' L i j hi (Finset.mem_range.mp hjm)]
    rcases eq_or_ne i j with rfl | hne
    · rw [if_pos rfl, if_pos rfl]
    · rw [if_neg hne, if_neg hne, mul_zero]
  rw [Finset.sum_congr rfl hj, Finset.sum_ite_eq (Finset.range (2 ^ L)) i
    (fun j => x j * (2 : R) ^ L), if_pos (Finset.mem_range.mpr hi)]
  ring

/-! ### From the precomputed tables to the closed forms -/

theorem rouPow_hom {R : Type} [CommRing R] (φ : ℤ →+* R) (a w : ℤ) (hφ : φ a = 0) :
    ∀ i : ℕ, φ (rouPow w a i) = (φ w) ^ i := by
  intro i
  induction i with
  | zero => simp [rouPow]
  | succ i ih => rw [rouPow, ringHom_emod φ a hφ, map_mul, ih, pow_succ]

theorem rouPow_closed (a w : ℤ) (ha : 2 ≤ a) : ∀ i : ℕ, rouPow w a i = w ^ i % a := by
  intro i
  induction i with
  | zero =>
    show (1:ℤ) = 1 % a
    rw [Int.emod_eq_of_lt (by norm_num) (by omega)]
  | succ i ih =>
    rw [rouPow, ih, pow_succ, Int.mul_emod, Int.emod_emod_of_dvd _ (dvd_refl a),
      ← Int.mul_emod]

theorem modInvE_ok {x a y : ℤ} (h : modInvE x a = .ok y) :
    (x * y) % a = 1 ∧ 2 ≤ a := by
  rcases hf : (List.range a.toNat).find? (fun y : ℕ => (x * (y : ℤ)) % a == 1) with _ | y'
  · simp only [modInvE, hf] at h
    cases h
  · simp only [modInvE, hf, Except.ok.injEq] at h
    subst h
    have hp := List.find?_some hf
    have hp' : (x * (y' : ℤ)) % a = 1 := by simpa using hp
    refine ⟨hp', ?_⟩
    have hmem := List.mem_of_find?_eq_some hf
    have hlt : y' < a.toNat := List.mem_range.mp hmem
    have ha0 : 0 < a := by
      by_contra hcon
      push_neg at hcon
      rw [Int.toNat_of_nonpos hcon] at hlt
      omega
    by_contra hcon
    push_neg at hcon
    have ha1 : a = 1 := by omega
    rw [ha1, Int.emod_one] at hp'
    exact absurd hp' (by norm_num)

theorem dftW_congr {R : Type} [CommRing R] (ω : R) (L : ℕ) (x x' : ℕ → R)
    (h : ∀ j < 2 ^ L, x j = x' j) (k : ℕ) : dftW ω L x k = dftW ω L x' k := by
  unfold dftW
  apply Finset.sum_congr rfl
  intro j hj
  rw [h j (Finset.mem_range.mp hj)]

theorem resolveRoot_some {w root : ℤ} {order : ℕ} {a : ℤ}
    (h : resolveRoot (some w) order a = .ok root) (hw : w ≠ 0) : root = w := by
  rw [resolveRoot, if_pos hw] at h
  simp only [pure, Except.pure, Except.ok.injEq] at h
  exact h.symm

theorem nttCtxInit_ok {d : ℕ} {aZ : ℤ} {r? : Option ℤ} {ctx : NTTCtx}
    (h : nttCtxInit d aZ r? = .ok ctx) :
    ∃ root rinv dinv : ℤ,
      resolveRoot r? (2 * d) aZ = .ok root ∧
      ctx = ⟨d, aZ, (List.range d).map (rouPow root aZ),
        (List.range d).map (rouPow rinv aZ),
        (List.range d).map (fun i =>
          (dinv * ((List.range d).map (rouPow rinv aZ)).getD i 0) % aZ),
        (List.range d).map (fun i => reverseBits i (log2E d) % d)⟩ ∧
      (root * rinv) % aZ = 1 ∧ ((d : ℤ) * dinv) % aZ = 1 ∧
      d &&& (d - 1) = 0 ∧ 2 ≤ aZ ∧ 1 ≤ d := by
  rw [nttCtxInit] at h
  split at h
  · simp only [bind, Except.bind, throw, throwThe, MonadExceptOf.throw] at h
    cases h
  · rename_i hassert
    rcases hr : resolveRoot r? (2 * d) aZ with e | root
    · rw [hr] at h
      simp only [bind, Except.bind] at h
      cases h
    · rw [hr] at h
      simp only [bind, Except.bind] at h
      rcases h1 : modInvE root aZ with e | rinv
      · rw [h1] at h
        simp only [bind, Except.bind] at h
        cases h
      · rw [h1] at h
        simp only [bind, Except.bind] at h
        rcases h2 : modInvE (d : ℤ) aZ with e | dinv
        · rw [h2] at h
          simp only [bind, Except.bind] at h
          cases h
        · rw [h2] at h
          simp only [bind, Except.bind, pure, Except.pure, Except.ok.injEq] at h
          obtain ⟨hmul1, ha⟩ := modInvE_ok h1
          obtain ⟨hmul2, _⟩ := modInvE_ok h2
          have hd1 : 1 ≤ d := by
            by_contra hcon
            push_neg at hcon
            have hd0 : d = 0 := by omega
            subst hd0
            simp at hmul2
          exact ⟨root, rinv, dinv, rfl, h.symm, hmul1, hmul2, by omega, ha, hd1⟩

theorem fttFwdList_length (ctx : NTTCtx) (coeffs : List ℤ) :
    (fttFwdList ctx coeffs).length = coeffs.length := by
  unfold fttFwdList
  rw [nttList_length]
  simp

theorem fttInvList_length (ctx : NTTCtx) (coeffs : List ℤ) :
    (fttInvList ctx coeffs).length = coeffs.length := by
  unfold fttInvList
  simp

/-- Master round-trip lemma: on any successfully constructed context (any
degree, any modulus, any root), `ftt_inv ∘ ftt_fwd` is the identity modulo
the modulus. -/
theorem ftt_roundtrip {d : ℕ} {aZ : ℤ} {r? : Option ℤ} {ctx : NTTCtx}
    (hinit : nttCtxInit d aZ r? = .ok ctx) (coeffs : List ℤ)
    (hlen : coeffs.length = d) :
    ∀ i < d, (fttInvList ctx (fttFwdList ctx coeffs)).getD i 0 % aZ =
      coeffs.getD i 0 % aZ := by
  obtain ⟨root, rinv, dinv, hr, hctx, hmul1, hmul2, hpow, ha, hd1⟩ := nttCtxInit_ok hinit
  obtain ⟨L', hdL'⟩ := (and_pred_eq_zero_iff (by omega)).1 hpow
  have hdL : d = 2 ^ log2E d := by rw [hdL', log2E_two_pow]
  set L := log2E d with hLdef
  set R := ZMod aZ.toNat with hRdef
  have haZnat : ((aZ.toNat : ℕ) : ℤ) = aZ := Int.toNat_of_nonneg (by omega)
  set φ := Int.castRingHom R with hφdef
  have hφ0 : φ aZ = 0 := by
    show ((aZ : ℤ) : R) = 0
    have h1 : (((aZ.toNat : ℕ) : ℤ) : R) = 0 := by
      rw [Int.cast_natCast]
      exact ZMod.natCast_self aZ.toNat
    rw [haZnat] at h1
    exact h1
  have hT1 : ctx.roots_of_unity = (List.range d).map (rouPow root aZ) := by rw [hctx]
  have hT2 : ctx.roots_of_unity_inv = (List.range d).map (rouPow rinv aZ) := by rw [hctx]
  have hT3 : ctx.scaled_rou_inv = (List.range d).map (fun i =>
      (dinv * ((List.range d).map (rouPow rinv aZ)).getD i 0) % aZ) := by rw [hctx]
  have hT4 : ctx.reversed_bits = (List.range d).map
      (fun i => reverseBits i (log2E d) % d) := by rw [hctx]
  have hmodZ : ctx.coeff_modulus = aZ := by rw [hctx]
  have hrb : ∀ i < 2 ^ L, ctx.reversed_bits.getD i 0 = reverseBits i L := by
    intro i hi
    have hid : i < d := by rw [hdL]; exact hi
    rw [hT4, getD_map_range _ _ _ _ hid]
    apply Nat.mod_eq_of_lt
    rw [← hLdef, hdL]
    exact reverseBits_lt i L
  set W := φ root with hWdef
  set W' := φ rinv with hW'def
  set DI := φ dinv with hDIdef
  have hWW' : W * W' = 1 := by
    have h1 : φ ((root * rinv) % aZ) = φ 1 := by rw [hmul1]
    rw [ringHom_emod φ aZ hφ0, map_mul, map_one] at h1
    exact h1
  have hdDI : φ (d : ℤ) * DI = 1 := by
    have h1 : φ (((d : ℤ) * dinv) % aZ) = φ 1 := by rw [hmul2]
    rw [ringHom_emod φ aZ hφ0, map_mul, map_one] at h1
    exact h1
  have hfwd1 : ∀ i < d, ctx.roots_of_unity.getD i 0 = rouPow root aZ i := by
    intro i hi
    rw [hT1, getD_map_range _ _ _ _ hi]
  have hinv1 : ∀ i < d, ctx.roots_of_unity_inv.getD i 0 = rouPow rinv aZ i := by
    intro i hi
    rw [hT2, getD_map_range _ _ _ _ hi]
  have hscl1 : ∀ i < d, φ (ctx.scaled_rou_inv.getD i 0) = DI * W' ^ i := by
    intro i hi
    rw [hT3, getD_map_range _ _ _ _ hi, ringHom_emod φ aZ hφ0, map_mul,
      getD_map_range _ _ _ _ hi, rouPow_hom φ aZ rinv hφ0]
  set x : ℕ → R := fun j => φ (coeffs.getD j 0) with hxdef
  set tw : List ℤ := (List.range coeffs.length).map
    (fun i => (coeffs.getD i 0 * ctx.roots_of_unity.getD i 0) % aZ)
    with htwdef
  have htwlen : tw.length = 2 ^ L := by simp [htwdef, hlen, ← hdL]
  have htw : ∀ j < 2 ^ L, φ (tw.getD j 0) = x j * W ^ j := by
    intro j hj
    have hjd : j < d := by rw [hdL]; exact hj
    rw [htwdef, getD_map_range _ _ _ _ (by rw [hlen]; exact hjd),
      ringHom_emod φ aZ hφ0, map_mul, hfwd1 j hjd, rouPow_hom φ aZ root hφ0]
  have hfwdeq : fttFwdList ctx coeffs = nttList ctx tw ctx.roots_of_unity := by
    rw [fttFwdList, hmodZ]
  have hVfwd : ∀ t, 2 * t < 2 ^ L →
      φ (ctx.roots_of_unity.getD (2 * t) 0) = (W ^ 2) ^ t := by
    intro t ht
    rw [hfwd1 (2 * t) (by rw [hdL]; exact ht), rouPow_hom φ aZ root hφ0, ← pow_mul]
  have hfwdval : ∀ k < 2 ^ L, φ ((fttFwdList ctx coeffs).getD k 0) =
      dftW (W ^ 2) L (fun j => x j * W ^ j) k := by
    intro k hk
    rw [hfwdeq, nttList_bridge φ ctx tw ctx.roots_of_unity L (by rw [hmodZ]; exact hφ0)
      htwlen hrb k hk]
    rw [nttFn_eq_dftW L (W ^ 2) _ _ hVfwd k hk]
    exact dftW_congr _ _ _ _ htw k
  have hYlen : (fttFwdList ctx coeffs).length = 2 ^ L := by
    rw [fttFwdList_length, hlen, hdL]
  have hVinv : ∀ t, 2 * t < 2 ^ L →
      φ (ctx.roots_of_unity_inv.getD (2 * t) 0) = (W' ^ 2) ^ t := by
    intro t ht
    rw [hinv1 (2 * t) (by rw [hdL]; exact ht), rouPow_hom φ aZ rinv hφ0, ← pow_mul]
  have hinner : ∀ i < 2 ^ L,
      φ ((nttList ctx (fttFwdList ctx coeffs) ctx.roots_of_unity_inv).getD i 0) =
        (2 : R) ^ L * (x i * W ^ i) := by
    intro i hi
    rw [nttList_bridge φ ctx _ ctx.roots_of_unity_inv L (by rw [hmodZ]; exact hφ0)
      hYlen hrb i hi]
    rw [nttFn_eq_dftW L (W' ^ 2) _ _ hVinv i hi]
    rw [dftW_congr (W' ^ 2) L _ (fun k => dftW (W ^ 2) L (fun j => x j * W ^ j) k)
      hfwdval i]
    exact dftW_dftW (W ^ 2) (W' ^ 2) (by rw [← mul_pow, hWW', one_pow]) L _ i hi
  intro i hi
  have hiL : i < 2 ^ L := by rw [← hdL]; exact hi
  have hfinal : φ ((fttInvList ctx (fttFwdList ctx coeffs)).getD i 0) = x i := by
    rw [fttInvList, hmodZ]
    rw [getD_map_range _ _ _ _ (by rw [hYlen, ← hdL]; exact hi)]
    rw [ringHom_emod φ aZ hφ0, map_mul, hinner i hiL, hscl1 i hi]
    have h2R : (2 : R) ^ L = (d : R) := by
      rw [hdL]
      push_cast
      ring
    rw [h2R]
    have hstep : (d : R) * (x i * W ^ i) * (DI * W' ^ i) =
        ((d : R) * DI) * ((W * W') ^ i) * x i := by
      rw [mul_pow]
      ring
    rw [hstep, hWW', one_pow, mul_one]
    have hdcast : φ (d : ℤ) = (d : R) := by
      show (((d : ℕ) : ℤ) : R) = (d : R)
      push_cast
      rfl
    rw [← hdcast, hdDI, one_mul]
  have hcast : ((fttInvList ctx (fttFwdList ctx coeffs)).getD i 0 : R) =
      (coeffs.getD i 0 : R) := hfinal
  have hmodeq := (ZMod.intCast_eq_intCast_iff _ _ _).1 hcast
  have hmod' : (fttInvList ctx (fttFwdList ctx coeffs)).getD i 0 % ((aZ.toNat : ℕ) : ℤ) =
      coeffs.getD i 0 % ((aZ.toNat : ℕ) : ℤ) := hmodeq
  rw [haZnat] at hmod'
  exact hmod'

/-! ### Evaluation form of the network and the negacyclic convolution law -/

theorem pow_mod_eq {R : Type} [CommRing R] (ω : R) {m : ℕ} (hω : ω ^ m = 1) (n : ℕ) :
    ω ^ n = ω ^ (n % m) := by
  conv_lhs => rw [← Nat.div_add_mod n m]
  rw [pow_add, pow_mul, hω, one_pow, one_mul]

theorem testBit_toNat (k q : ℕ) : (k.testBit q).toNat = k / 2 ^ q % 2 := by
  rw [Nat.testBit_to_div_mod]
  rcases Nat.mod_two_eq_zero_or_one (k / 2 ^ q) with h | h <;> simp [h]

theorem summand_congr (L r k b : ℕ) (hr : r < L) :
    (b * 2 ^ r * (k % 2 ^ (L - 1 - r))
        + 2 ^ (L - 1) * (b * (k.testBit (L - 1 - r)).toNat)) % 2 ^ L
      = b * 2 ^ r * k % 2 ^ L := by
  have hq1 : r + ((L - 1 - r) + 1) = L := by omega
  have hq2 : r + (L - 1 - r) = L - 1 := by omega
  have hpL : (2 : ℕ) ^ r * 2 ^ ((L - 1 - r) + 1) = 2 ^ L := by
    rw [← pow_add, hq1]
  have hsplit : b * 2 ^ r * k
      = b * 2 ^ r * (k % 2 ^ ((L - 1 - r) + 1))
        + b * (k / 2 ^ ((L - 1 - r) + 1)) * 2 ^ L := by
    conv_lhs => rw [← Nat.div_add_mod k (2 ^ ((L - 1 - r) + 1))]
    rw [← hpL]
    ring
  rw [hsplit, Nat.add_mul_mod_self_right]
  congr 1
  have hpow : (2 : ℕ) ^ (L - 1) = 2 ^ r * 2 ^ (L - 1 - r) := by
    rw [← pow_add, hq2]
  rw [Nat.mod_pow_succ, testBit_toNat, hpow]
  ring

theorem eW_sW_mod (L k j : ℕ) (hj : j < 2 ^ L) :
    (eW L k j + 2 ^ (L - 1) * sW L k j) % 2 ^ L = j * k % 2 ^ L := by
  have hjk : j * k = ∑ r ∈ Finset.range L, (j.testBit r).toNat * 2 ^ r * k := by
    conv_lhs => rw [← Nat.mod_eq_of_lt hj, mod_two_pow_sum L j, Finset.sum_mul]
  rw [hjk, eW, sW, Finset.mul_sum, ← Finset.sum_add_distrib,
    Finset.sum_nat_mod, Finset.sum_nat_mod (Finset.range L) (2 ^ L)
      (fun r => (j.testBit r).toNat * 2 ^ r * k)]
  congr 1
  apply Finset.sum_congr rfl
  intro r hr
  exact summand_congr L r k ((j.testBit r).toNat) (Finset.mem_range.1 hr)

/-- Under `ω^(2^(L-1)) = -1` the generalized transform matrix collapses to a
true discrete Fourier transform: entry `(k, j)` is `ω^(j·k)`. -/
theorem dftW_eq_eval {R : Type} [CommRing R] (ω : R) (L : ℕ)
    (hω : 1 ≤ L → ω ^ 2 ^ (L - 1) = -1) (x : ℕ → R) (k : ℕ) :
    dftW ω L x k = ∑ j ∈ Finset.range (2 ^ L), x j * ω ^ (j * k) := by
  rcases Nat.eq_zero_or_pos L with hL0 | hL1
  · subst hL0
    simp [dftW, eW, sW]
  · have hneg : ω ^ 2 ^ (L - 1) = -1 := hω hL1
    have hone : ω ^ 2 ^ L = 1 := by
      have h2 : (2 : ℕ) ^ L = 2 ^ (L - 1) * 2 := by
        rw [← pow_succ]
        congr 1
        omega
      rw [h2, pow_mul, hneg, neg_one_sq]
    rw [dftW]
    apply Finset.sum_congr rfl
    intro j hj
    have hjlt := Finset.mem_range.1 hj
    rw [mul_assoc]
    congr 1
    calc (-1 : R) ^ sW L k j * ω ^ eW L k j
        = ω ^ (eW L k j + 2 ^ (L - 1) * sW L k j) := by
          rw [pow_add, pow_mul, hneg]
          ring
      _ = ω ^ ((eW L k j + 2 ^ (L - 1) * sW L k j) % 2 ^ L) := pow_mod_eq ω hone _
      _ = ω ^ (j * k % 2 ^ L) := by rw [eW_sW_mod L k j hjlt]
      _ = ω ^ (j * k) := (pow_mod_eq ω hone _).symm

/-- Product of two evaluations at a point `z` with `z^d = -1` equals the
evaluation of the negacyclic convolution of the coefficient sequences. -/
theorem negacyclic_eval {R : Type} [CommRing R] (z : R) (d : ℕ) (hz : z ^ d = -1)
    (P Q : ℕ → R) :
    (∑ i ∈ Finset.range d, P i * z ^ i) * ∑ j ∈ Finset.range d, Q j * z ^ j
      = ∑ m ∈ Finset.range d,
          ((∑ i ∈ Finset.range (m + 1), P i * Q (m - i))
            - ∑ i ∈ Finset.Ico (m + 1) d, P i * Q (m + d - i)) * z ^ m := by
  rw [Finset.sum_mul_sum, ← Finset.sum_product']
  have hf : ∀ p ∈ Finset.range d ×ˢ Finset.range d,
      P p.1 * z ^ p.1 * (Q p.2 * z ^ p.2) = P p.1 * Q p.2 * z ^ (p.1 + p.2) := by
    intro p _
    rw [pow_add]
    ring
  rw [Finset.sum_congr rfl hf,
    ← Finset.sum_filter_add_sum_filter_not (Finset.range d ×ˢ Finset.range d)
      (fun p => p.1 + p.2 < d)]
  have hA : ∑ p ∈ (Finset.range d ×ˢ Finset.range d).filter (fun p => p.1 + p.2 < d),
      P p.1 * Q p.2 * z ^ (p.1 + p.2)
      = ∑ m ∈ Finset.range d, (∑ i ∈ Finset.range (m + 1), P i * Q (m - i)) * z ^ m := by
    have hrhs : ∀ m ∈ Finset.range d,
        (∑ i ∈ Finset.range (m + 1), P i * Q (m - i)) * z ^ m
          = ∑ i ∈ Finset.range (m + 1), P i * Q (m - i) * z ^ m := by
      intro m _
      rw [Finset.sum_mul]
    rw [Finset.sum_congr rfl hrhs,
      Finset.sum_sigma' (Finset.range d) (fun m => Finset.range (m + 1))
        (fun m i => P i * Q (m - i) * z ^ m)]
    apply Finset.sum_nbij' (fun p => (⟨p.1 + p.2, p.1⟩ : Σ _ : ℕ, ℕ))
      (fun q => ((q.2, q.1 - q.2) : ℕ × ℕ))
    · intro p hp
      simp only [Finset.mem_filter, Finset.mem_product, Finset.mem_range] at hp
      simp only [Finset.mem_sigma, Finset.mem_range]
      omega
    · intro q hq
      simp only [Finset.mem_sigma, Finset.mem_range] at hq
      simp only [Finset.mem_filter, Finset.mem_product, Finset.mem_range]
      omega
    · intro p hp
      simp only [Finset.mem_filter, Finset.mem_product, Finset.mem_range] at hp
      have h1 : p.1 + p.2 - p.1 = p.2 := by omega
      simp only [h1]
    · intro q hq
      simp only [Finset.mem_sigma, Finset.mem_range] at hq
      obtain ⟨m, i⟩ := q
      simp only at hq ⊢
      have h1 : i + (m - i) = m := by omega
      simp only [h1]
    · intro p hp
      simp only [Finset.mem_filter, Finset.mem_product, Finset.mem_range] at hp
      have h1 : p.1 + p.2 - p.1 = p.2 := by omega
      simp only [h1]
  have hB : ∑ p ∈ (Finset.range d ×ˢ Finset.range d).filter (fun p => ¬ p.1 + p.2 < d),
      P p.1 * Q p.2 * z ^ (p.1 + p.2)
      = -∑ m ∈ Finset.range d, (∑ i ∈ Finset.Ico (m + 1) d, P i * Q (m + d - i)) * z ^ m := by
    have hval : ∀ p ∈ (Finset.range d ×ˢ Finset.range d).filter
        (fun p => ¬ p.1 + p.2 < d),
        P p.1 * Q p.2 * z ^ (p.1 + p.2) = -(P p.1 * Q p.2 * z ^ (p.1 + p.2 - d)) := by
      intro p hp
      simp only [Finset.mem_filter, Finset.mem_product, Finset.mem_range] at hp
      have hd : p.1 + p.2 - d + d = p.1 + p.2 := by omega
      calc P p.1 * Q p.2 * z ^ (p.1 + p.2)
          = P p.1 * Q p.2 * z ^ (p.1 + p.2 - d + d) := by rw [hd]
        _ = -(P p.1 * Q p.2 * z ^ (p.1 + p.2 - d)) := by
            rw [pow_add, hz]
            ring
    rw [Finset.sum_congr rfl hval, Finset.sum_neg_distrib, neg_inj]
    have hrhs : ∀ m ∈ Finset.range d,
        (∑ i ∈ Finset.Ico (m + 1) d, P i * Q (m + d - i)) * z ^ m
          = ∑ i ∈ Finset.Ico (m + 1) d, P i * Q (m + d - i) * z ^ m := by
      intro m _
      rw [Finset.sum_mul]
    rw [Finset.sum_congr rfl hrhs,
      Finset.sum_sigma' (Finset.range d) (fun m => Finset.Ico (m + 1) d)
        (fun m i => P i * Q (m + d - i) * z ^ m)]
    apply Finset.sum_nbij' (fun p => (⟨p.1 + p.2 - d, p.1⟩ : Σ _ : ℕ, ℕ))
      (fun q => ((q.2, q.1 + d - q.2) : ℕ × ℕ))
    · intro p hp
      simp only [Finset.mem_filter, Finset.mem_product, Finset.mem_range] at hp
      simp only [Finset.mem_sigma, Finset.mem_range, Finset.mem_Ico]
      omega
    · intro q hq
      simp only [Finset.mem_sigma, Finset.mem_range, Finset.mem_Ico] at hq
      simp only [Finset.mem_filter, Finset.mem_product, Finset.mem_range]
      omega
    · intro p hp
      simp only [Finset.mem_filter, Finset.mem_product, Finset.mem_range] at hp
      have h1 : p.1 + p.2 - d + d - p.1 = p.2 := by omega
      simp only [h1]
    · intro q hq
      simp only [Finset.mem_sigma, Finset.mem_range, Finset.mem_Ico] at hq
      obtain ⟨m, i⟩ := q
      simp only at hq ⊢
      have h1 : i + (m + d - i) - d = m := by omega
      simp only [h1]
    · intro p hp
      simp only [Finset.mem_filter, Finset.mem_product, Finset.mem_range] at hp
      have h2 : p.1 + p.2 - d + d - p.1 = p.2 := by omega
      simp only [h2]
  rw [hA, hB]
  have hsub : ∀ m ∈ Finset.range d,
      ((∑ i ∈ Finset.range (m + 1), P i * Q (m - i))
        - ∑ i ∈ Finset.Ico (m + 1) d, P i * Q (m + d - i)) * z ^ m
      = (∑ i ∈ Finset.range (m + 1), P i * Q (m - i)) * z ^ m
        - (∑ i ∈ Finset.Ico (m + 1) d, P i * Q (m + d - i)) * z ^ m := by
    intro m _
    rw [sub_mul]
  rw [Finset.sum_congr rfl hsub, Finset.sum_sub_distrib]
  ring

/-! ### The FTT convolution pipeline and the negacyclic reference product -/

theorem negacyclicConv_length (a : ℤ) (d : ℕ) (p q : List ℤ) :
    (negacyclicConv a d p q).length = d := by
  simp [negacyclicConv]

theorem pointwiseMulMod_length (a : ℤ) (d : ℕ) (f g : List ℤ) :
    (pointwiseMulMod a d f g).length = d := by
  simp [pointwiseMulMod]

theorem emod_eq_of_cast_eq {aZ : ℤ} (ha : 0 ≤ aZ) {x y : ℤ}
    (h : (x : ZMod aZ.toNat) = (y : ZMod aZ.toNat)) : x % aZ = y % aZ := by
  have h2 := (ZMod.intCast_eq_intCast_iff _ _ _).1 h
  have h3 : x % ((aZ.toNat : ℕ) : ℤ) = y % ((aZ.toNat : ℕ) : ℤ) := h2
  rwa [Int.toNat_of_nonneg ha] at h3

/-- **C2** (amended): the claim as stated omits the hypothesis
`w^degree ≡ -1 (mod a)`.  Exact multiplicative order `2·degree` does not imply
it for a composite modulus, and without it the pipeline does not compute the
negacyclic product (see the counterexample at `a = 51`, `w = 19`).  With that
hypothesis added, transforming `p` and `q` with `ftt_fwd`, multiplying
pointwise modulo the modulus and applying `ftt_inv` yields the negacyclic
product `p·q mod (x^degree + 1)` as computed by the naive O(d²) reference
convolution, elementwise modulo the modulus. -/
theorem C2_ftt_negacyclic_convolution {d : ℕ} {aZ w : ℤ} {ctx : NTTCtx}
    (hinit : nttCtxInit d aZ (some w) = .ok ctx)
    (hord1 : w ^ (2 * d) % aZ = 1)
    (hord2 : ∀ m, 0 < m → m < 2 * d → w ^ m % aZ ≠ 1)
    (hneg : (w ^ d + 1) % aZ = 0)
    (p q : List ℤ) (hp : p.length = d) (hq : q.length = d) :
    ∀ m < d,
      (fttInvList ctx (pointwiseMulMod aZ d
          (fttFwdList ctx p) (fttFwdList ctx q))).getD m 0 % aZ
        = (negacyclicConv aZ d p q).getD m 0 % aZ := by
  obtain ⟨root, rinv, dinv, hr, hctx, hmul1, hmul2, hpow, ha, hd1⟩ := nttCtxInit_ok hinit
  have hw0 : w ≠ 0 := by
    intro hwz
    subst hwz
    rw [zero_pow (by omega : 2 * d ≠ 0), Int.zero_emod] at hord1
    exact absurd hord1 (by norm_num)
  have hroot : root = w := resolveRoot_some hr hw0
  rw [hroot] at hctx
  obtain ⟨L', hdL'⟩ := (and_pred_eq_zero_iff (by omega)).1 hpow
  have hdL : d = 2 ^ log2E d := by rw [hdL', log2E_two_pow]
  set L := log2E d with hLdef
  set R := ZMod aZ.toNat with hRdef
  have haZnat : ((aZ.toNat : ℕ) : ℤ) = aZ := Int.toNat_of_nonneg (by omega)
  set φ := Int.castRingHom R with hφdef
  have hφ0 : φ aZ = 0 := by
    show ((aZ : ℤ) : R) = 0
    have h1 : (((aZ.toNat : ℕ) : ℤ) : R) = 0 := by
      rw [Int.cast_natCast]
      exact ZMod.natCast_self aZ.toNat
    rw [haZnat] at h1
    exact h1
  have hT1 : ctx.roots_of_unity = (List.range d).map (rouPow w aZ) := by rw [hctx]
  have hT2 : ctx.roots_of_unity_inv = (List.range d).map (rouPow rinv aZ) := by rw [hctx]
  have hT4 : ctx.reversed_bits = (List.range d).map
      (fun i => reverseBits i (log2E d) % d) := by rw [hctx]
  have hmodZ : ctx.coeff_modulus = aZ := by rw [hctx]
  have hrb : ∀ i < 2 ^ L, ctx.reversed_bits.getD i 0 = reverseBits i L := by
    intro i hi
    have hid : i < d := by rw [hdL]; exact hi
    rw [hT4, getD_map_range _ _ _ _ hid]
    apply Nat.mod_eq_of_lt
    rw [← hLdef, hdL]
    exact reverseBits_lt i L
  set W := φ w with hWdef
  set W' := φ rinv with hW'def
  have hWd : W ^ d = -1 := by
    have h1 : φ ((w ^ d + 1) % aZ) = φ 0 := by rw [hneg]
    rw [ringHom_emod φ aZ hφ0, map_add, map_pow, map_one, map_zero] at h1
    linear_combination h1
  have hfwd1 : ∀ i < d, ctx.roots_of_unity.getD i 0 = rouPow w aZ i := by
    intro i hi
    rw [hT1, getD_map_range _ _ _ _ hi]
  have hinv1 : ∀ i < d, ctx.roots_of_unity_inv.getD i 0 = rouPow rinv aZ i := by
    intro i hi
    rw [hT2, getD_map_range _ _ _ _ hi]
  have hVfwd : ∀ t, 2 * t < 2 ^ L →
      φ (ctx.roots_of_unity.getD (2 * t) 0) = (W ^ 2) ^ t := by
    intro t ht
    rw [hfwd1 (2 * t) (by rw [hdL]; exact ht), rouPow_hom φ aZ w hφ0, ← pow_mul]
  have hVinv : ∀ t, 2 * t < 2 ^ L →
      φ (ctx.roots_of_unity_inv.getD (2 * t) 0) = (W' ^ 2) ^ t := by
    intro t ht
    rw [hinv1 (2 * t) (by rw [hdL]; exact ht), rouPow_hom φ aZ rinv hφ0, ← pow_mul]
  have hω2 : 1 ≤ L → (W ^ 2) ^ 2 ^ (L - 1) = -1 := by
    intro hL1
    have h2 : 2 * 2 ^ (L - 1) = 2 ^ L := by
      calc 2 * 2 ^ (L - 1) = 2 ^ (1 + (L - 1)) := by rw [pow_add, pow_one]
        _ = 2 ^ L := by congr 1; omega
    rw [← pow_mul, h2, ← hdL]
    exact hWd
  have hzk : ∀ k : ℕ, (W ^ (2 * k + 1)) ^ d = -1 := by
    intro k
    rw [← pow_mul, (by ring : (2 * k + 1) * d = d * (2 * k + 1)), pow_mul, hWd]
    exact Odd.neg_one_pow ⟨k, by ring⟩
  have heval : ∀ u : List ℤ, u.length = d → ∀ k, k < d →
      φ ((fttFwdList ctx u).getD k 0)
        = ∑ j ∈ Finset.range d, φ (u.getD j 0) * (W ^ (2 * k + 1)) ^ j := by
    intro u hu k hk
    have hkL : k < 2 ^ L := by rw [← hdL]; exact hk
    set tw : List ℤ := (List.range u.length).map
      (fun i => (u.getD i 0 * ctx.roots_of_unity.getD i 0) % aZ) with htwdef
    have htwlen : tw.length = 2 ^ L := by simp [htwdef, hu, ← hdL]
    have htw : ∀ j < 2 ^ L, φ (tw.getD j 0) = φ (u.getD j 0) * W ^ j := by
      intro j hj
      have hjd : j < d := by rw [hdL]; exact hj
      rw [htwdef, getD_map_range _ _ _ _ (by rw [hu]; exact hjd),
        ringHom_emod φ aZ hφ0, map_mul, hfwd1 j hjd, rouPow_hom φ aZ w hφ0]
    have hfwdeq : fttFwdList ctx u = nttList ctx tw ctx.roots_of_unity := by
      rw [fttFwdList, hmodZ]
    rw [hfwdeq, nttList_bridge φ ctx tw ctx.roots_of_unity L
      (by rw [hmodZ]; exact hφ0) htwlen hrb k hkL,
      nttFn_eq_dftW L (W ^ 2) _ _ hVfwd k hkL,
      dftW_congr (W ^ 2) L (fun j => φ (tw.getD j 0))
        (fun j => φ (u.getD j 0) * W ^ j) htw k,
      dftW_eq_eval (W ^ 2) L hω2 (fun j => φ (u.getD j 0) * W ^ j) k]
    rw [← hdL]
    apply Finset.sum_congr rfl
    intro j _
    rw [← pow_mul, ← pow_mul, mul_assoc, ← pow_add,
      (by ring : j + 2 * (j * k) = (2 * k + 1) * j)]
  set Np := negacyclicConv aZ d p q with hNpdef
  have hNlen : Np.length = d := negacyclicConv_length aZ d p q
  have hNval : ∀ m, m < d → φ (Np.getD m 0)
      = (∑ i ∈ Finset.range (m + 1), φ (p.getD i 0) * φ (q.getD (m - i) 0))
        - ∑ i ∈ Finset.Ico (m + 1) d, φ (p.getD i 0) * φ (q.getD (m + d - i) 0) := by
    intro m hm
    rw [hNpdef, negacyclicConv, getD_map_range _ _ _ _ hm, ringHom_emod φ aZ hφ0,
      map_sub, map_sum, map_sum]
    simp only [map_mul]
  set Y := pointwiseMulMod aZ d (fttFwdList ctx p) (fttFwdList ctx q) with hYdef
  have hYlen : Y.length = d := pointwiseMulMod_length aZ d _ _
  have hfwdNlen : (fttFwdList ctx Np).length = d := by rw [fttFwdList_length, hNlen]
  have hYk : ∀ k, k < d → φ (Y.getD k 0) = φ ((fttFwdList ctx Np).getD k 0) := by
    intro k hk
    calc φ (Y.getD k 0)
        = φ ((fttFwdList ctx p).getD k 0) * φ ((fttFwdList ctx q).getD k 0) := by
          rw [hYdef, pointwiseMulMod, getD_map_range _ _ _ _ hk,
            ringHom_emod φ aZ hφ0, map_mul]
      _ = (∑ i ∈ Finset.range d, φ (p.getD i 0) * (W ^ (2 * k + 1)) ^ i)
            * ∑ j ∈ Finset.range d, φ (q.getD j 0) * (W ^ (2 * k + 1)) ^ j := by
          rw [heval p hp k hk, heval q hq k hk]
      _ = ∑ m ∈ Finset.range d,
            ((∑ i ∈ Finset.range (m + 1), φ (p.getD i 0) * φ (q.getD (m - i) 0))
              - ∑ i ∈ Finset.Ico (m + 1) d,
                  φ (p.getD i 0) * φ (q.getD (m + d - i) 0)) * (W ^ (2 * k + 1)) ^ m :=
          negacyclic_eval (W ^ (2 * k + 1)) d (hzk k)
            (fun i => φ (p.getD i 0)) (fun i => φ (q.getD i 0))
      _ = ∑ m ∈ Finset.range d, φ (Np.getD m 0) * (W ^ (2 * k + 1)) ^ m := by
          apply Finset.sum_congr rfl
          intro m hm
          rw [hNval m (Finset.mem_range.1 hm)]
      _ = φ ((fttFwdList ctx Np).getD k 0) := (heval Np hNlen k hk).symm
  have hdLY : Y.length = 2 ^ L := by rw [hYlen, hdL]
  have hdLN : (fttFwdList ctx Np).length = 2 ^ L := by rw [hfwdNlen, hdL]
  intro m hm
  have hmL : m < 2 ^ L := by rw [← hdL]; exact hm
  have hinvY : φ ((nttList ctx Y ctx.roots_of_unity_inv).getD m 0)
      = φ ((nttList ctx (fttFwdList ctx Np) ctx.roots_of_unity_inv).getD m 0) := by
    rw [nttList_bridge φ ctx Y ctx.roots_of_unity_inv L (by rw [hmodZ]; exact hφ0)
      hdLY hrb m hmL,
      nttList_bridge φ ctx (fttFwdList ctx Np) ctx.roots_of_unity_inv L
        (by rw [hmodZ]; exact hφ0) hdLN hrb m hmL,
      nttFn_eq_dftW L (W' ^ 2) _ _ hVinv m hmL,
      nttFn_eq_dftW L (W' ^ 2) _ _ hVinv m hmL]
    exact dftW_congr (W' ^ 2) L _ _ (fun j hj => hYk j (by rw [hdL]; exact hj)) m
  have hfin : φ ((fttInvList ctx Y).getD m 0)
      = φ ((fttInvList ctx (fttFwdList ctx Np)).getD m 0) := by
    rw [fttInvList, fttInvList, hmodZ]
    rw [getD_map_range _ _ _ _ (by rw [hYlen]; exact hm),
      getD_map_range _ _ _ _ (by rw [hfwdNlen]; exact hm)]
    rw [ringHom_emod φ aZ hφ0, ringHom_emod φ aZ hφ0, map_mul, map_mul, hinvY]
  have hMod1 : (fttInvList ctx Y).getD m 0 % aZ
      = (fttInvList ctx (fttFwdList ctx Np)).getD m 0 % aZ :=
    emod_eq_of_cast_eq (by omega) hfin
  rw [hMod1]
  exact ftt_roundtrip hinit Np hNlen m hm

/-- Counterexample to C2 as stated: modulo the composite `51`, the element `19`
has exact multiplicative order `8 = 2·4`, yet on `p = q = x` the pipeline
returns `18` in coefficient 2 where the negacyclic reference product `x² `
has coefficient `1`. -/
theorem C2_counterexample :
    nttCtxInit 4 51 (some 19)
        = .ok ⟨4, 51, [1, 19, 4, 25], [1, 43, 13, 49], [13, 49, 16, 25], [0, 2, 1, 3]⟩
      ∧ (19 : ℤ) ^ (2 * 4) % 51 = 1
      ∧ (∀ m ∈ Finset.Ico 1 (2 * 4), (19 : ℤ) ^ m % 51 ≠ 1)
      ∧ (fttInvList ⟨4, 51, [1, 19, 4, 25], [1, 43, 13, 49], [13, 49, 16, 25], [0, 2, 1, 3]⟩
            (pointwiseMulMod 51 4
              (fttFwdList
                ⟨4, 51, [1, 19, 4, 25], [1, 43, 13, 49], [13, 49, 16, 25], [0, 2, 1, 3]⟩
                [0, 1, 0, 0])
              (fttFwdList
                ⟨4, 51, [1, 19, 4, 25], [1, 43, 13, 49], [13, 49, 16, 25], [0, 2, 1, 3]⟩
                [0, 1, 0, 0]))).getD 2 0 % 51
          ≠ (negacyclicConv 51 4 [0, 1, 0, 0] [0, 1, 0, 0]).getD 2 0 % 51 := by
  refine ⟨by decide, by decide, by decide, by decide⟩

/-- Concrete instance of the amended C2 theorem: degree 4, modulus 17, root 2
(order 8, and `2⁴ ≡ -1 (mod 17)`), inputs `[1,2,3,4]` and `[5,6,7,8]`. -/
theorem C2_ftt_negacyclic_convolution_witness :
    (2 : ℤ) ^ (2 * 4) % 17 = 1 ∧ ((2 : ℤ) ^ 4 + 1) % 17 = 0 ∧
    (fttInvList ⟨4, 17, [1, 2, 4, 8], [1, 9, 13, 15], [13, 15, 16, 8], [0, 2, 1, 3]⟩
        (pointwiseMulMod 17 4
          (fttFwdList ⟨4, 17, [1, 2, 4, 8], [1, 9, 13, 15], [13, 15, 16, 8], [0, 2, 1, 3]⟩
            [1, 2, 3, 4])
          (fttFwdList ⟨4, 17, [1, 2, 4, 8], [1, 9, 13, 15], [13, 15, 16, 8], [0, 2, 1, 3]⟩
            [5, 6, 7, 8]))).getD 2 0 % 17
      = (negacyclicConv 17 4 [1, 2, 3, 4] [5, 6, 7, 8]).getD 2 0 % 17 :=
  ⟨by decide, by decide,
    @C2_ftt_negacyclic_convolution 4 17 2
      ⟨4, 17, [1, 2, 4, 8], [1, 9, 13, 15], [13, 15, 16, 8], [0, 2, 1, 3]⟩
      (by decide) (by decide)
      (fun m hm1 hm2 => by interval_cases m <;> decide)
      (by decide) [1, 2, 3, 4] [5, 6, 7, 8] (by decide) (by decide) 2 (by decide)⟩

/-! ### Claim-level theorems: round trip, table contents, construction guard -/

/-- **C1**: for every context successfully constructed from a root `w` of exact
multiplicative order `2·degree` modulo the modulus, and every integer
coefficient list of length `degree`, `ftt_inv(ftt_fwd(coeffs))` equals
`coeffs` elementwise modulo the modulus.  (The proof in fact never needs the
order hypotheses: successful construction already forces the two modular
inverses that drive the round trip.) -/
theorem C1_ftt_roundtrip {d : ℕ} {aZ w : ℤ} {ctx : NTTCtx}
    (hinit : nttCtxInit d aZ (some w) = .ok ctx)
    (hord1 : w ^ (2 * d) % aZ = 1)
    (hord2 : ∀ m, 0 < m → m < 2 * d → w ^ m % aZ ≠ 1)
    (coeffs : List ℤ) (hlen : coeffs.length = d) :
    ∀ i < d, (fttInvList ctx (fttFwdList ctx coeffs)).getD i 0 % aZ =
      coeffs.getD i 0 % aZ :=
  ftt_roundtrip hinit coeffs hlen

/-- Concrete instance of C1: degree 4, modulus 17, root 2 (exact order 8),
coefficients `[1,2,3,4]`, checked at index 1. -/
theorem C1_ftt_roundtrip_witness :
    (2 : ℤ) ^ (2 * 4) % 17 = 1 ∧
    (fttInvList ⟨4, 17, [1, 2, 4, 8], [1, 9, 13, 15], [13, 15, 16, 8], [0, 2, 1, 3]⟩
        (fttFwdList ⟨4, 17, [1, 2, 4, 8], [1, 9, 13, 15], [13, 15, 16, 8], [0, 2, 1, 3]⟩
          [1, 2, 3, 4])).getD 1 0 % 17 = ([1, 2, 3, 4] : List ℤ).getD 1 0 % 17 :=
  ⟨by decide,
    @C1_ftt_roundtrip 4 17 2
      ⟨4, 17, [1, 2, 4, 8], [1, 9, 13, 15], [13, 15, 16, 8], [0, 2, 1, 3]⟩
      (by decide) (by decide)
      (fun m hm1 hm2 => by interval_cases m <;> decide)
      [1, 2, 3, 4] (by decide) 1 (by decide)⟩

/-- **C4**: for every successfully constructed context with supplied nonzero
root `w`, the forward table entry `i` is `w^i mod a`, and `ftt_fwd` is exactly
the twist-then-`ntt` composite: coefficient `i` is multiplied by
`roots_of_unity[i]` modulo the modulus, and `ntt` is run on the twisted
vector with the forward root table. -/
theorem C4_ftt_fwd_twist {d : ℕ} {aZ w : ℤ} {ctx : NTTCtx}
    (hinit : nttCtxInit d aZ (some w) = .ok ctx) (hw : w ≠ 0)
    (coeffs : List ℤ) (hlen : coeffs.length = d) :
    (∀ i < d, ctx.roots_of_unity.getD i 0 = w ^ i % aZ) ∧
    fttFwdList ctx coeffs
      = nttList ctx ((List.range d).map
          (fun i => (coeffs.getD i 0 * ctx.roots_of_unity.getD i 0) % aZ))
          ctx.roots_of_unity := by
  obtain ⟨root, rinv, dinv, hr, hctx, hmul1, hmul2, hpow, ha, hd1⟩ := nttCtxInit_ok hinit
  have hroot : root = w := resolveRoot_some hr hw
  rw [hroot] at hctx
  have hmodZ : ctx.coeff_modulus = aZ := by rw [hctx]
  have hT1 : ctx.roots_of_unity = (List.range d).map (rouPow w aZ) := by rw [hctx]
  constructor
  · intro i hi
    rw [hT1, getD_map_range _ _ _ _ hi, rouPow_closed aZ w ha i]
  · rw [fttFwdList, hlen, hmodZ]

/-- Concrete instance of C4: degree 4, modulus 17, root 2. -/
theorem C4_ftt_fwd_twist_witness :
    (⟨4, 17, [1, 2, 4, 8], [1, 9, 13, 15], [13, 15, 16, 8], [0, 2, 1, 3]⟩ :
        NTTCtx).roots_of_unity.getD 3 0 = (2 : ℤ) ^ 3 % 17 ∧
    fttFwdList ⟨4, 17, [1, 2, 4, 8], [1, 9, 13, 15], [13, 15, 16, 8], [0, 2, 1, 3]⟩
        [1, 2, 3, 4]
      = nttList ⟨4, 17, [1, 2, 4, 8], [1, 9, 13, 15], [13, 15, 16, 8], [0, 2, 1, 3]⟩
          ((List.range 4).map (fun i => (([1, 2, 3, 4] : List ℤ).getD i 0 *
            (⟨4, 17, [1, 2, 4, 8], [1, 9, 13, 15], [13, 15, 16, 8], [0, 2, 1, 3]⟩ :
              NTTCtx).roots_of_unity.getD i 0) % 17))
          (⟨4, 17, [1, 2, 4, 8], [1, 9, 13, 15], [13, 15, 16, 8], [0, 2, 1, 3]⟩ :
            NTTCtx).roots_of_unity :=
  have h := @C4_ftt_fwd_twist 4 17 2
    ⟨4, 17, [1, 2, 4, 8], [1, 9, 13, 15], [13, 15, 16, 8], [0, 2, 1, 3]⟩
    (by decide) (by decide) [1, 2, 3, 4] (by decide)
  ⟨h.1 3 (by decide), h.2⟩

/-- **C5**: in every successfully constructed context with supplied nonzero
root `w`, the table entry `scaled_rou_inv[i]` is the canonical representative
of `degree⁻¹·w⁻ⁱ` modulo the modulus (it lies in `[0, a)` and multiplying it
by `degree·wⁱ` gives `1 mod a`), and `ftt_inv` is exactly `ntt` with the
inverse root table followed by the single multiplication of entry `i` by
`scaled_rou_inv[i]` modulo the modulus — no separate normalization pass. -/
theorem C5_scaled_rou_inv {d : ℕ} {aZ w : ℤ} {ctx : NTTCtx}
    (hinit : nttCtxInit d aZ (some w) = .ok ctx) (hw : w ≠ 0)
    (coeffs : List ℤ) (hlen : coeffs.length = d) :
    (∀ i < d, 0 ≤ ctx.scaled_rou_inv.getD i 0 ∧ ctx.scaled_rou_inv.getD i 0 < aZ ∧
      (ctx.scaled_rou_inv.getD i 0 * ((d : ℤ) * w ^ i)) % aZ = 1) ∧
    fttInvList ctx coeffs
      = (List.range d).map (fun i =>
          ((nttList ctx coeffs ctx.roots_of_unity_inv).getD i 0
            * ctx.scaled_rou_inv.getD i 0) % aZ) := by
  obtain ⟨root, rinv, dinv, hr, hctx, hmul1, hmul2, hpow, ha, hd1⟩ := nttCtxInit_ok hinit
  have hroot : root = w := resolveRoot_some hr hw
  rw [hroot] at hctx hmul1
  have hmodZ : ctx.coeff_modulus = aZ := by rw [hctx]
  have hT3 : ctx.scaled_rou_inv = (List.range d).map (fun i =>
      (dinv * ((List.range d).map (rouPow rinv aZ)).getD i 0) % aZ) := by rw [hctx]
  set R := ZMod aZ.toNat with hRdef
  have haZnat : ((aZ.toNat : ℕ) : ℤ) = aZ := Int.toNat_of_nonneg (by omega)
  set φ := Int.castRingHom R with hφdef
  have hφ0 : φ aZ = 0 := by
    show ((aZ : ℤ) : R) = 0
    have h1 : (((aZ.toNat : ℕ) : ℤ) : R) = 0 := by
      rw [Int.cast_natCast]
      exact ZMod.natCast_self aZ.toNat
    rw [haZnat] at h1
    exact h1
  set W := φ w with hWdef
  set W' := φ rinv with hW'def
  set DI := φ dinv with hDIdef
  have hWW' : W * W' = 1 := by
    have h1 : φ ((w * rinv) % aZ) = φ 1 := by rw [hmul1]
    rw [ringHom_emod φ aZ hφ0, map_mul, map_one] at h1
    exact h1
  have hdDI : φ (d : ℤ) * DI = 1 := by
    have h1 : φ (((d : ℤ) * dinv) % aZ) = φ 1 := by rw [hmul2]
    rw [ringHom_emod φ aZ hφ0, map_mul, map_one] at h1
    exact h1
  constructor
  · intro i hi
    have hentry : ctx.scaled_rou_inv.getD i 0 = (dinv * rouPow rinv aZ i) % aZ := by
      rw [hT3, getD_map_range _ _ _ _ hi, getD_map_range _ _ _ _ hi]
    refine ⟨?_, ?_, ?_⟩
    · rw [hentry]
      exact Int.emod_nonneg _ (by omega)
    · rw [hentry]
      exact Int.emod_lt_of_pos _ (by omega)
    · have hcast : φ (ctx.scaled_rou_inv.getD i 0 * ((d : ℤ) * w ^ i)) = φ 1 := by
        rw [map_mul, hentry, ringHom_emod φ aZ hφ0, map_mul,
          rouPow_hom φ aZ rinv hφ0, map_mul, map_pow, map_one]
        calc DI * W' ^ i * (φ (d : ℤ) * W ^ i)
            = (φ (d : ℤ) * DI) * ((W * W') ^ i) := by rw [mul_pow]; ring
          _ = 1 := by rw [hWW', hdDI, one_pow, mul_one]
      have h1 := emod_eq_of_cast_eq (by omega) hcast
      rwa [show (1 : ℤ) % aZ = 1 from Int.emod_eq_of_lt (by norm_num) (by omega)] at h1
  · rw [fttInvList, hlen, hmodZ]

/-- Concrete instance of C5: degree 4, modulus 17, root 2; the scaled inverse
table is `[13, 15, 16, 8]` and e.g. `15·(4·2) ≡ 1 (mod 17)`. -/
theorem C5_scaled_rou_inv_witness :
    (0 ≤ ((⟨4, 17, [1, 2, 4, 8], [1, 9, 13, 15], [13, 15, 16, 8], [0, 2, 1, 3]⟩ :
        NTTCtx).scaled_rou_inv.getD 1 0) ∧
      (⟨4, 17, [1, 2, 4, 8], [1, 9, 13, 15], [13, 15, 16, 8], [0, 2, 1, 3]⟩ :
        NTTCtx).scaled_rou_inv.getD 1 0 < 17 ∧
      ((⟨4, 17, [1, 2, 4, 8], [1, 9, 13, 15], [13, 15, 16, 8], [0, 2, 1, 3]⟩ :
        NTTCtx).scaled_rou_inv.getD 1 0 * ((4 : ℤ) * 2 ^ 1)) % 17 = 1) ∧
    fttInvList ⟨4, 17, [1, 2, 4, 8], [1, 9, 13, 15], [13, 15, 16, 8], [0, 2, 1, 3]⟩
        [10, 7, 15, 6]
      = (List.range 4).map (fun i =>
          ((nttList ⟨4, 17, [1, 2, 4, 8], [1, 9, 13, 15], [13, 15, 16, 8], [0, 2, 1, 3]⟩
              [10, 7, 15, 6]
              (⟨4, 17, [1, 2, 4, 8], [1, 9, 13, 15], [13, 15, 16, 8], [0, 2, 1, 3]⟩ :
                NTTCtx).roots_of_unity_inv).getD i 0
            * (⟨4, 17, [1, 2, 4, 8], [1, 9, 13, 15], [13, 15, 16, 8], [0, 2, 1, 3]⟩ :
                NTTCtx).scaled_rou_inv.getD i 0) % 17) :=
  have h := @C5_scaled_rou_inv 4 17 2
    ⟨4, 17, [1, 2, 4, 8], [1, 9, 13, 15], [13, 15, 16, 8], [0, 2, 1, 3]⟩
    (by decide) (by decide) [10, 7, 15, 6] (by decide)
  ⟨h.1 1 (by decide), h.2⟩

/-- **C6** (amended): the claim as stated is false for `poly_degree = 0`
(not a power of two, yet the Python test `(d & (d-1)) == 0` passes and the
construction proceeds past the assert — see the counterexample).  For every
positive degree that is not a power of two, construction fails with the
assertion error before any table is built. -/
theorem C6_construction_guard (d : ℕ) (aZ : ℤ) (r? : Option ℤ)
    (hd : 0 < d) (hnp : ∀ k : ℕ, d ≠ 2 ^ k) :
    nttCtxInit d aZ r? = .error .assertionFailure := by
  have hne : d &&& (d - 1) ≠ 0 := by
    intro h
    obtain ⟨k, hk⟩ := (and_pred_eq_zero_iff hd).1 h
    exact hnp k hk
  rw [nttCtxInit, if_pos hne]
  rfl

/-- Counterexample to C6 as stated: `0` is not a power of two, yet
construction at degree `0` passes the power-of-two assert (`0 & -1 == 0` in
Python) and fails only later, with the collaborator's "not invertible" error
instead of the claimed precondition error. -/
theorem C6_counterexample :
    (∀ k : ℕ, (0 : ℕ) ≠ 2 ^ k) ∧
    nttCtxInit 0 17 (some 4) = .error .notInvertible ∧
    nttCtxInit 0 17 (some 4) ≠ .error .assertionFailure :=
  ⟨fun k => (Nat.two_pow_pos k).ne, by decide, by decide⟩

/-- Concrete instance of the amended C6 theorem: degree 6 is positive and not
a power of two, and construction fails with the assertion error. -/
theorem C6_construction_guard_witness :
    0 < 6 ∧ nttCtxInit 6 17 (some 4) = .error .assertionFailure :=
  ⟨by decide,
    C6_construction_guard 6 17 (some 4) (by decide)
      (fun k => by
        rcases Nat.lt_or_ge k 3 with h | h
        · interval_cases k <;> decide
        · have h8 : 2 ^ 3 ≤ 2 ^ k := Nat.pow_le_pow_right (by norm_num) h
          omega)⟩

/-- Counterexample to C8 as stated: `4` does not have exact order `8`
modulo `17` — already `4⁴ ≡ 1 (mod 17)`. -/
theorem C8_counterexample :
    (4 : ℤ) ^ 4 % 17 = 1 ∧ 0 < 4 ∧ 4 < 8 := by
  decide

/-- **C8** (amended): the stated root `4` does not have order `8` mod `17`
(see the counterexample); for the valid choice `root = 2` — which does have
exact order `8` — the context is as computed, `ntt([1,2,3,4])` with the
forward table gives the radix-2 result `[10,7,15,6]`, and running `ntt` with
the inverse table followed by multiplication by `4⁻¹ ≡ 13 (mod 17)` returns
`[1,2,3,4]`. -/
theorem C8_concrete_ntt :
    nttCtxInit 4 17 (some 2)
        = .ok ⟨4, 17, [1, 2, 4, 8], [1, 9, 13, 15], [13, 15, 16, 8], [0, 2, 1, 3]⟩
      ∧ (2 : ℤ) ^ 8 % 17 = 1
      ∧ (∀ m ∈ Finset.Ico 1 8, (2 : ℤ) ^ m % 17 ≠ 1)
      ∧ ((4 : ℤ) * 13) % 17 = 1
      ∧ nttList ⟨4, 17, [1, 2, 4, 8], [1, 9, 13, 15], [13, 15, 16, 8], [0, 2, 1, 3]⟩
          [1, 2, 3, 4] [1, 2, 4, 8] = [10, 7, 15, 6]
      ∧ (List.range 4).map (fun i =>
          ((nttList ⟨4, 17, [1, 2, 4, 8], [1, 9, 13, 15], [13, 15, 16, 8], [0, 2, 1, 3]⟩
              [10, 7, 15, 6] [1, 9, 13, 15]).getD i 0 * 13) % 17) = [1, 2, 3, 4] := by
  refine ⟨by decide, by decide, by decide, by decide, by decide, by decide⟩

/-! ### Checked-subscript machinery: `listGetE`, `foldlM`, and the length check -/

theorem exceptPure {β : Type} (b : β) : (pure b : Except PyErr β) = .ok b := rfl

theorem exceptBind_ok {β γ : Type} (b : β) (k : β → Except PyErr γ) :
    ((Except.ok b : Except PyErr β) >>= k) = k b := rfl

theorem exceptBind_err {β γ : Type} (e : PyErr) (k : β → Except PyErr γ) :
    ((Except.error e : Except PyErr β) >>= k) = .error e := rfl

theorem listGetE_ok {α : Type} (xs : List α) (i : ℕ) (dflt : α) (h : i < xs.length) :
    listGetE xs i = .ok (xs.getD i dflt) := by
  rw [listGetE]
  have h1 : xs.get? i = some (xs.getD i dflt) := by
    rw [List.get?_eq_getElem?, List.getD_eq_getElem?_getD]
    cases h2 : xs[i]? with
    | none =>
      exfalso
      rw [List.getElem?_eq_none_iff] at h2
      omega
    | some v => rfl
  rw [h1]

theorem listGetE_err {α : Type} (xs : List α) (i : ℕ) (h : xs.length ≤ i) :
    listGetE xs i = .error .indexError := by
  rw [listGetE]
  have h1 : xs.get? i = none := by
    rw [List.get?_eq_getElem?]
    exact List.getElem?_eq_none h
  rw [h1]

theorem listGetE_ne_typeError {α : Type} (xs : List α) (i : ℕ) :
    listGetE xs i ≠ .error .typeError := by
  rw [listGetE]
  cases xs.get? i <;> simp

theorem bind_ne_error {β γ : Type} (e : PyErr) (x : Except PyErr β)
    (k : β → Except PyErr γ) (hx : x ≠ .error e) (hk : ∀ b, k b ≠ .error e) :
    (x >>= k) ≠ .error e := by
  cases x with
  | error f =>
    intro h
    have h2 : (Except.error f : Except PyErr γ) = .error e := h
    cases h2
    exact hx rfl
  | ok b => exact hk b

theorem foldlM_ne_error {α β : Type} (e : PyErr) (f : β → α → Except PyErr β)
    (l : List α) (hf : ∀ x a, f x a ≠ .error e) :
    ∀ b, l.foldlM f b ≠ .error e := by
  induction l with
  | nil =>
    intro b h
    exact Except.noConfusion h
  | cons a l ih =>
    intro b h
    rw [List.foldlM_cons] at h
    cases hfa : f b a with
    | error f' =>
      rw [hfa] at h
      have h2 : (Except.error f' : Except PyErr β) = .error e := h
      cases h2
      exact hf b a hfa
    | ok b' =>
      rw [hfa] at h
      exact ih b' h

theorem foldlM_eq_foldl {α β : Type} (P : β → Prop) (f : β → α → Except PyErr β)
    (g : β → α → β) (l : List α) (b : β) (hb : P b)
    (hfg : ∀ x a, P x → a ∈ l → f x a = .ok (g x a) ∧ P (g x a)) :
    l.foldlM f b = .ok (l.foldl g b) ∧ P (l.foldl g b) := by
  induction l generalizing b with
  | nil => exact ⟨rfl, hb⟩
  | cons a l ih =>
    obtain ⟨h1, h2⟩ := hfg b a hb (List.mem_cons_self a l)
    rw [List.foldlM_cons, List.foldl_cons, h1]
    exact ih (g b a) h2 (fun x a' hx ha' => hfg x a' hx (List.mem_cons_of_mem a ha'))

theorem foldl_append_map {α β : Type} (f : α → β) (l : List α) (acc : List β) :
    l.foldl (fun a x => a ++ [f x]) acc = acc ++ l.map f := by
  induction l generalizing acc with
  | nil => simp
  | cons a l ih => simp [List.foldl_cons, ih]

theorem reverseBits_zero (w : ℕ) : reverseBits 0 w = 0 := by
  induction w with
  | zero => rfl
  | succ w ih => simp [reverseBits, ih]

theorem reverseBits_one (w : ℕ) : reverseBits 1 (w + 1) = 2 ^ w := by
  rw [reverseBits, reverseBits_zero]
  norm_num

/-- **C7**: the length check of `ntt` (and of `fft`).  When
`len(rou) != len(coeffs)` the call fails immediately — but, because the
assert's message concatenates a `str` with the `int` `len(rou)`, the failure
is a `TypeError`, not the descriptive precondition (assertion) error the
spec promises; no result is returned.  When the lengths agree the check
passes: neither `ntt` nor `fft` ever raises `TypeError` (a later subscript
may still raise IndexError, the insufficiency C10 documents). -/
theorem C7_length_check :
    (∀ (ctx : NTTCtx) (coeffs rou : List ℤ), rou.length ≠ coeffs.length →
        nttE ctx coeffs rou = .error .typeError)
      ∧ (∀ (ctx : NTTCtx) (coeffs rou : List ℤ), rou.length = coeffs.length →
        nttE ctx coeffs rou ≠ .error .typeError)
      ∧ (∀ (K : Type) (inst : CommRing K) (ctx : FFTCtx K) (coeffs rou : List K),
        rou.length ≠ coeffs.length → fftE ctx coeffs rou = .error .typeError)
      ∧ (∀ (K : Type) (inst : CommRing K) (ctx : FFTCtx K) (coeffs rou : List K),
        rou.length = coeffs.length → fftE ctx coeffs rou ≠ .error .typeError) := by
  refine ⟨?_, ?_, ?_, ?_⟩
  · intro ctx coeffs rou hne
    rw [nttE, if_pos hne]
    rfl
  · intro ctx coeffs rou heq
    rw [nttE, if_neg (by omega : ¬ rou.length ≠ coeffs.length)]
    apply bind_ne_error
    · exact fun h => Except.noConfusion h
    · intro u
      apply bind_ne_error
      · rw [nttLoadE]
        apply foldlM_ne_error
        intro acc i
        apply bind_ne_error
        · exact listGetE_ne_typeError _ _
        · intro rb
          apply bind_ne_error
          · exact listGetE_ne_typeError _ _
          · exact fun c h => Except.noConfusion h
      · intro result
        apply foldlM_ne_error
        intro res lm
        rw [nttStageE]
        apply foldlM_ne_error
        intro res2 jj
        apply foldlM_ne_error
        intro res3 i
        apply bind_ne_error
        · exact listGetE_ne_typeError _ _
        · intro rv
          apply bind_ne_error
          · exact listGetE_ne_typeError _ _
          · intro ro
            apply bind_ne_error
            · exact listGetE_ne_typeError _ _
            · exact fun re h => Except.noConfusion h
  · intro K inst ctx coeffs rou hne
    rw [fftE, if_pos hne]
    rfl
  · intro K inst ctx coeffs rou heq
    rw [fftE, if_neg (by omega : ¬ rou.length ≠ coeffs.length)]
    apply bind_ne_error
    · exact fun h => Except.noConfusion h
    · intro u
      apply bind_ne_error
      · rw [fftLoadE]
        apply foldlM_ne_error
        intro acc i
        apply bind_ne_error
        · exact listGetE_ne_typeError _ _
        · intro rb
          apply bind_ne_error
          · exact listGetE_ne_typeError _ _
          · exact fun c h => Except.noConfusion h
      · intro result
        apply foldlM_ne_error
        intro res lm
        rw [fftStageE]
        apply foldlM_ne_error
        intro res2 jj
        apply foldlM_ne_error
        intro res3 i
        apply bind_ne_error
        · exact listGetE_ne_typeError _ _
        · intro rv
          apply bind_ne_error
          · exact listGetE_ne_typeError _ _
          · intro ro
            apply bind_ne_error
            · exact listGetE_ne_typeError _ _
            · exact fun re h => Except.noConfusion h

theorem nttStageE_ok (a : ℤ) (rou : List ℤ) (L logm n : ℕ) (res : List ℤ)
    (hres : res.length = n) (hrou : rou.length = n) (hn : n = 2 ^ L)
    (hlm1 : 1 ≤ logm) (hlmL : logm ≤ L) :
    nttStageE a rou L logm n res = .ok (nttStageList a rou L logm n res) := by
  have hdvd : 2 ^ logm ∣ n := by
    rw [hn]
    exact pow_dvd_pow 2 hlmL
  have hceil : (n + 2 ^ logm - 1) / 2 ^ logm = n / 2 ^ logm :=
    ceil_div_eq_div (Nat.two_pow_pos logm) hdvd
  have hM2 : 2 ^ logm = 2 * 2 ^ (logm - 1) := by
    calc 2 ^ logm = 2 ^ (1 + (logm - 1)) := by congr 1; omega
      _ = 2 * 2 ^ (logm - 1) := by rw [pow_add, pow_one]
  have hrouP : 2 ^ (logm - 1) * 2 ^ (1 + L - logm) = 2 ^ L := by
    rw [← pow_add]
    congr 1
    omega
  rw [nttStageE, nttStageList]
  refine (foldlM_eq_foldl (fun r : List ℤ => r.length = n) _ _ _ res hres ?_).1
  intro res2 jj hres2 hjj
  have hjjlt : jj < n / 2 ^ logm := by
    rw [← hceil]
    exact List.mem_range.mp hjj
  have hblock : (jj + 1) * 2 ^ logm ≤ n := by
    calc (jj + 1) * 2 ^ logm ≤ (n / 2 ^ logm) * 2 ^ logm :=
        Nat.mul_le_mul_right _ (Nat.succ_le_of_lt hjjlt)
      _ = n := Nat.div_mul_cancel hdvd
  have hdist : jj * 2 ^ logm + 2 ^ logm = (jj + 1) * 2 ^ logm := by ring
  refine foldlM_eq_foldl (fun r : List ℤ => r.length = n) _ _ _ res2 hres2 ?_
  intro res3 i hres3 hi
  have hilt : i < 2 ^ (logm - 1) := List.mem_range.mp hi
  have hodd : jj * 2 ^ logm + i + 2 ^ (logm - 1) < n := by omega
  have hridx : i <<< (1 + L - logm) < n := by
    rw [Nat.shiftLeft_eq, hn, ← hrouP]
    exact mul_lt_mul_of_pos_right hilt (Nat.two_pow_pos _)
  constructor
  · simp only [listGetE_ok rou (i <<< (1 + L - logm)) 0
        (by omega : i <<< (1 + L - logm) < rou.length),
      listGetE_ok res3 (jj * 2 ^ logm + i + 2 ^ (logm - 1)) 0
        (by omega : jj * 2 ^ logm + i + 2 ^ (logm - 1) < res3.length),
      listGetE_ok res3 (jj * 2 ^ logm + i) 0
        (by omega : jj * 2 ^ logm + i < res3.length),
      exceptBind_ok, exceptPure]
  · simp [hres3]

theorem nttLoadE_ok (ctx : NTTCtx) (coeffs : List ℤ) (n : ℕ)
    (h1 : n ≤ ctx.reversed_bits.length)
    (h2 : ∀ i < n, ctx.reversed_bits.getD i 0 < coeffs.length) :
    nttLoadE ctx coeffs n
      = .ok ((List.range n).map (fun i => coeffs.getD (ctx.reversed_bits.getD i 0) 0)) := by
  obtain ⟨heq, -⟩ := foldlM_eq_foldl (fun _ : List ℤ => True)
    (fun acc i => do
      let rb ← listGetE ctx.reversed_bits i
      let c ← listGetE coeffs rb
      pure (acc ++ [c]))
    (fun acc i => acc ++ [coeffs.getD (ctx.reversed_bits.getD i 0) 0])
    (List.range n) [] trivial
    (fun acc i _ hi => by
      have hin : i < n := List.mem_range.mp hi
      refine ⟨?_, trivial⟩
      simp only [listGetE_ok ctx.reversed_bits i 0 (by omega),
        listGetE_ok coeffs (ctx.reversed_bits.getD i 0) 0 (h2 i hin),
        exceptBind_ok, exceptPure])
  rw [nttLoadE, heq, foldl_append_map]
  simp

/-- **C10**: the stated precondition of `ntt` (equal lengths of `coeffs` and
`rou`) is not sufficient for in-range indexing: for every context of degree
at least 4, the call on the two-element input `coeffs = rou = [0,0]` passes
the length check but raises IndexError in the bit-reversal load (the
degree-sized `reversed_bits` table sends index 1 to `2^(L-1) ≥ 2`); under
the stronger precondition `len(coeffs) = len(rou) = degree`, every subscript
of `ntt` is in range and the checked transform totally computes the
unchecked one. -/
theorem C10_ntt_indexing {d : ℕ} {aZ : ℤ} {r? : Option ℤ} {ctx : NTTCtx}
    (hinit : nttCtxInit d aZ r? = .ok ctx) (hd4 : 4 ≤ d) :
    nttE ctx [0, 0] [0, 0] = .error .indexError
      ∧ ∀ coeffs rou : List ℤ, coeffs.length = d → rou.length = d →
          nttE ctx coeffs rou = .ok (nttList ctx coeffs rou) := by
  obtain ⟨root, rinv, dinv, hr, hctx, hmul1, hmul2, hpow, ha, hd1⟩ := nttCtxInit_ok hinit
  obtain ⟨L', hdL'⟩ := (and_pred_eq_zero_iff (by omega)).1 hpow
  have hdL : d = 2 ^ log2E d := by rw [hdL', log2E_two_pow]
  set L := log2E d with hLdef
  have hT4 : ctx.reversed_bits = (List.range d).map
      (fun i => reverseBits i (log2E d) % d) := by rw [hctx]
  have hrblen : ctx.reversed_bits.length = d := by rw [hT4]; simp
  have hL2 : 2 ≤ L := by
    by_contra hcon
    push_neg at hcon
    have hp : 2 ^ L ≤ 2 ^ 1 := Nat.pow_le_pow_right (by norm_num) (by omega)
    omega
  obtain ⟨l, hl⟩ : ∃ l, L = l + 1 := ⟨L - 1, by omega⟩
  have hl1 : 1 ≤ l := by omega
  have hrb0 : ctx.reversed_bits.getD 0 0 = 0 := by
    rw [hT4, getD_map_range _ _ _ _ (by omega : 0 < d), reverseBits_zero, Nat.zero_mod]
  have hrb1 : ctx.reversed_bits.getD 1 0 = 2 ^ l := by
    rw [hT4, getD_map_range _ _ _ _ (by omega : 1 < d), ← hLdef, hl, reverseBits_one]
    apply Nat.mod_eq_of_lt
    rw [hdL, hl]
    exact Nat.pow_lt_pow_right (by norm_num) (by omega)
  constructor
  · have hload : nttLoadE ctx ([0, 0] : List ℤ) (([0, 0] : List ℤ).length)
        = .error .indexError := by
      rw [show (([0, 0] : List ℤ)).length = 2 from rfl, nttLoadE,
        show List.range 2 = [0, 1] from rfl]
      simp only [List.foldlM_cons, List.foldlM_nil,
        listGetE_ok ctx.reversed_bits 0 0 (by omega : 0 < ctx.reversed_bits.length),
        listGetE_ok ctx.reversed_bits 1 0 (by omega : 1 < ctx.reversed_bits.length),
        hrb0, hrb1, exceptBind_ok, exceptPure,
        show listGetE ([0, 0] : List ℤ) 0 = .ok 0 from rfl,
        listGetE_err ([0, 0] : List ℤ) (2 ^ l)
          (by
            have hp : 2 ^ 1 ≤ 2 ^ l := Nat.pow_le_pow_right (by norm_num) hl1
            simpa using hp),
        exceptBind_err]
    rw [nttE, if_neg (by decide : ¬ (([0, 0] : List ℤ).length ≠ ([0, 0] : List ℤ).length))]
    simp only [exceptPure, exceptBind_ok]
    rw [hload]
    rfl
  · intro coeffs rou hclen hrlen
    have hlogeq : log2E coeffs.length = L := by rw [hclen]
    rw [nttE, if_neg (by omega : ¬ rou.length ≠ coeffs.length)]
    simp only [exceptPure, exceptBind_ok]
    have hload2 : nttLoadE ctx coeffs coeffs.length
        = .ok ((List.range coeffs.length).map
            (fun i => coeffs.getD (ctx.reversed_bits.getD i 0) 0)) := by
      apply nttLoadE_ok
      · omega
      · intro i hi
        rw [hT4, getD_map_range _ _ _ _ (by omega : i < d), hclen]
        exact Nat.mod_lt _ (by omega)
    rw [hload2]
    simp only [exceptBind_ok]
    have hstages := foldlM_eq_foldl (fun r : List ℤ => r.length = coeffs.length)
      (fun res lm => nttStageE ctx.coeff_modulus rou (log2E coeffs.length) (lm + 1)
        coeffs.length res)
      (fun res lm => nttStageList ctx.coeff_modulus rou (log2E coeffs.length) (lm + 1)
        coeffs.length res)
      (List.range (log2E coeffs.length))
      ((List.range coeffs.length).map (fun i => coeffs.getD (ctx.reversed_bits.getD i 0) 0))
      (by simp)
      (fun res lm hres hlm => by
        have hlmL : lm < log2E coeffs.length := List.mem_range.mp hlm
        refine ⟨nttStageE_ok _ _ _ _ _ _ hres (by omega) ?_ (by omega) (by omega), ?_⟩
        · rw [hlogeq, hclen]
          exact hdL
        · show (nttStageList ctx.coeff_modulus rou (log2E coeffs.length) (lm + 1)
              coeffs.length res).length = coeffs.length
          rw [nttStageList_length]
          exact hres)
    rw [hstages.1, nttList]

/-- Concrete instance of C10 at degree 4, modulus 17: the length-2 input
raises IndexError, while degree-length inputs compute the unchecked `ntt`. -/
theorem C10_ntt_indexing_witness :
    nttE ⟨4, 17, [1, 2, 4, 8], [1, 9, 13, 15], [13, 15, 16, 8], [0, 2, 1, 3]⟩
        [0, 0] [0, 0] = .error .indexError
      ∧ nttE ⟨4, 17, [1, 2, 4, 8], [1, 9, 13, 15], [13, 15, 16, 8], [0, 2, 1, 3]⟩
          [1, 2, 3, 4] [1, 2, 4, 8]
        = .ok (nttList ⟨4, 17, [1, 2, 4, 8], [1, 9, 13, 15], [13, 15, 16, 8], [0, 2, 1, 3]⟩
            [1, 2, 3, 4] [1, 2, 4, 8]) :=
  have h := @C10_ntt_indexing 4 17 (some 2)
    ⟨4, 17, [1, 2, 4, 8], [1, 9, 13, 15], [13, 15, 16, 8], [0, 2, 1, 3]⟩
    (by decide) (by decide)
  ⟨h.1, h.2 [1, 2, 3, 4] [1, 2, 4, 8] (by decide) (by decide)⟩

/-! ### The packed EMB transform: stage characterization and cancellation -/

theorem foldl_const {α β : Type} (l : List β) (a : α) :
    l.foldl (fun x _ => x) a = a := by
  induction l with
  | nil => rfl
  | cons b bl ih => simp [List.foldl_cons, ih]

theorem embStageList_length {K : Type} [CommRing K] (ctx : FFTCtx K) (l n : ℕ)
    (res : List K) : (embStageList ctx l n res).length = res.length := by
  unfold embStageList
  generalize List.range ((n + l - 1) / l) = lb
  induction lb generalizing res with
  | nil => rfl
  | cons b bl ih =>
    simp only [List.foldl_cons]
    rw [ih]
    generalize List.range (l >>> 1) = il
    induction il generalizing res with
    | nil => rfl
    | cons i il ih2 => simp only [List.foldl_cons]; rw [ih2]; simp

theorem embInvStageList_length {K : Type} [CommRing K] (ctx : FFTCtx K) (l n : ℕ)
    (res : List K) : (embInvStageList ctx l n res).length = res.length := by
  unfold embInvStageList
  generalize List.range ((n + l - 1) / l) = lb
  induction lb generalizing res with
  | nil => rfl
  | cons b bl ih =>
    simp only [List.foldl_cons]
    rw [ih]
    generalize List.range (l >>> 1) = il
    induction il generalizing res with
    | nil => rfl
    | cons i il ih2 => simp only [List.foldl_cons]; rw [ih2]; simp

theorem embInvStageList_one {K : Type} [CommRing K] (ctx : FFTCtx K) (n : ℕ)
    (res : List K) : embInvStageList ctx 1 n res = res := by
  unfold embInvStageList
  simp only [show (1 : ℕ) >>> 1 = 0 from rfl, List.range_zero, List.foldl_nil]
  exact foldl_const _ res

theorem embStageList_getD {K : Type} [CommRing K] (ctx : FFTCtx K) (s T : ℕ)
    (hsT : s < T) (res : List K) (hlen : res.length = 2 ^ T) (k : ℕ) :
    (embStageList ctx (2 ^ (s + 1)) (2 ^ T) res).getD k 0 =
      if k < 2 ^ T then
        (if k % 2 ^ (s + 1) < 2 ^ s then
          res.getD k 0 + res.getD (k + 2 ^ s) 0 *
            ctx.roots_of_unity.getD
              ((ctx.rot_group.getD (k % 2 ^ (s + 1)) 0 % 2 ^ (s + 3)) *
                (ctx.M / 2 ^ (s + 3))) 0
        else
          res.getD (k - 2 ^ s) 0 - res.getD k 0 *
            ctx.roots_of_unity.getD
              ((ctx.rot_group.getD (k % 2 ^ (s + 1) - 2 ^ s) 0 % 2 ^ (s + 3)) *
                (ctx.M / 2 ^ (s + 3))) 0)
      else res.getD k 0 := by
  have h2 : (2:ℕ)^(s+1) = 2 * 2^s := by rw [pow_succ]; ring
  have hpos : 0 < (2:ℕ)^s := Nat.two_pow_pos s
  have hdvd2 : 2 * 2^s ∣ 2^T := h2 ▸ pow_dvd_pow 2 hsT
  have hnb : (2^T + (2 * 2^s) - 1) / (2 * 2^s) = 2^T / (2 * 2^s) :=
    ceil_div_eq_div (by omega) hdvd2
  have hnbm : 2^T / (2 * 2^s) * (2 * 2^s) = 2^T := Nat.div_mul_cancel hdvd2
  have hsh1 : (2 * 2^s : ℕ) >>> 1 = 2^s := by
    rw [Nat.shiftRight_eq_div_pow, pow_one, Nat.mul_div_cancel_left _ (by norm_num)]
  have hsh2 : (2 * 2^s : ℕ) <<< 2 = 2^(s+3) := by
    rw [Nat.shiftLeft_eq]
    calc 2 * 2^s * 2^2 = 2^(1 + s + 2) := by rw [pow_add, pow_add, pow_one]
      _ = 2^(s+3) := by congr 1; omega
  have hshape : embStageList ctx (2^(s+1)) (2^T) res =
      (List.range (2^T / (2 * 2^s))).foldl
        (fun r jj => (List.range (2^s)).foldl
          (bflyStep
            (fun j u v => u + v * ctx.roots_of_unity.getD
              ((ctx.rot_group.getD j 0 % 2^(s+3)) * (ctx.M / 2^(s+3))) 0)
            (fun j u v => u - v * ctx.roots_of_unity.getD
              ((ctx.rot_group.getD j 0 % 2^(s+3)) * (ctx.M / 2^(s+3))) 0)
            0 (jj * (2 * 2^s)) (2^s)) r) res := by
    simp only [embStageList, bflyStep, h2, hnb, hsh1, hsh2]
    rfl
  rw [hshape,
    bflyBlocks_getD _ _ 0 (2^s) res hpos (2^T / (2 * 2^s)) (by rw [hnbm, hlen])
      (2^T / (2 * 2^s)) (le_refl _) k]
  rw [hnbm, h2]

theorem embInvStageList_getD {K : Type} [CommRing K] (ctx : FFTCtx K) (s T : ℕ)
    (hsT : s < T) (res : List K) (hlen : res.length = 2 ^ T) (k : ℕ) :
    (embInvStageList ctx (2 ^ (s + 1)) (2 ^ T) res).getD k 0 =
      if k < 2 ^ T then
        (if k % 2 ^ (s + 1) < 2 ^ s then
          res.getD k 0 + res.getD (k + 2 ^ s) 0
        else
          (res.getD (k - 2 ^ s) 0 - res.getD k 0) *
            ctx.roots_of_unity.getD
              ((2 ^ (s + 3) - ctx.rot_group.getD (k % 2 ^ (s + 1) - 2 ^ s) 0 % 2 ^ (s + 3)) *
                (ctx.M / 2 ^ (s + 3))) 0)
      else res.getD k 0 := by
  have h2 : (2:ℕ)^(s+1) = 2 * 2^s := by rw [pow_succ]; ring
  have hpos : 0 < (2:ℕ)^s := Nat.two_pow_pos s
  have hdvd2 : 2 * 2^s ∣ 2^T := h2 ▸ pow_dvd_pow 2 hsT
  have hnb : (2^T + (2 * 2^s) - 1) / (2 * 2^s) = 2^T / (2 * 2^s) :=
    ceil_div_eq_div (by omega) hdvd2
  have hnbm : 2^T / (2 * 2^s) * (2 * 2^s) = 2^T := Nat.div_mul_cancel hdvd2
  have hsh1 : (2 * 2^s : ℕ) >>> 1 = 2^s := by
    rw [Nat.shiftRight_eq_div_pow, pow_one, Nat.mul_div_cancel_left _ (by norm_num)]
  have hsh2 : (2 * 2^s : ℕ) <<< 2 = 2^(s+3) := by
    rw [Nat.shiftLeft_eq]
    calc 2 * 2^s * 2^2 = 2^(1 + s + 2) := by rw [pow_add, pow_add, pow_one]
      _ = 2^(s+3) := by congr 1; omega
  have hshape : embInvStageList ctx (2^(s+1)) (2^T) res =
      (List.range (2^T / (2 * 2^s))).foldl
        (fun r jj => (List.range (2^s)).foldl
          (bflyStep
            (fun j u v => u + v)
            (fun j u v => (u - v) * ctx.roots_of_unity.getD
              ((2^(s+3) - ctx.rot_group.getD j 0 % 2^(s+3)) * (ctx.M / 2^(s+3))) 0)
            0 (jj * (2 * 2^s)) (2^s)) r) res := by
    simp only [embInvStageList, bflyStep, h2, hnb, hsh1, hsh2]
    rfl
  rw [hshape,
    bflyBlocks_getD _ _ 0 (2^s) res hpos (2^T / (2 * 2^s)) (by rw [hnbm, hlen])
      (2^T / (2 * 2^s)) (le_refl _) k]
  rw [hnbm, h2]

theorem bitReverseVec_length {K : Type} [Zero K] (xs : List K) :
    (bitReverseVec xs).length = xs.length := by
  simp [bitReverseVec]

theorem bitReverseVec_getD {K : Type} [Zero K] (xs : List K) (k : ℕ)
    (hk : k < xs.length) :
    (bitReverseVec xs).getD k 0 = xs.getD (reverseBits k (log2E xs.length)) 0 := by
  rw [bitReverseVec, getD_map_range _ _ _ _ hk]

theorem embFold_length {K : Type} [CommRing K] (ctx : FFTCtx K) (n : ℕ)
    (l : List ℕ) (res : List K) :
    ((l.foldl (fun r s => embStageList ctx (2^(s+1)) n r) res)).length = res.length := by
  induction l generalizing res with
  | nil => rfl
  | cons b bl ih => simp only [List.foldl_cons]; rw [ih, embStageList_length]

theorem embInvFold_length {K : Type} [CommRing K] (ctx : FFTCtx K) (n m : ℕ)
    (l : List ℕ) (res : List K) :
    ((l.foldl (fun r s => embInvStageList ctx (m >>> s) n r) res)).length = res.length := by
  induction l generalizing res with
  | nil => rfl
  | cons b bl ih => simp only [List.foldl_cons]; rw [ih, embInvStageList_length]

/-- Applying the inverse packed butterfly stage after the forward stage of the
same length multiplies every entry by `2`, provided the paired twiddles
multiply to `1`; scalars pass through both stages. -/
theorem embInv_cancel {K : Type} [CommRing K] (ctx : FFTCtx K) (s T : ℕ) (hsT : s < T)
    (hroots : ∀ j < 2 ^ s,
      ctx.roots_of_unity.getD
          ((ctx.rot_group.getD j 0 % 2 ^ (s + 3)) * (ctx.M / 2 ^ (s + 3))) 0
        * ctx.roots_of_unity.getD
            ((2 ^ (s + 3) - ctx.rot_group.getD j 0 % 2 ^ (s + 3)) *
              (ctx.M / 2 ^ (s + 3))) 0 = 1)
    (Z X : List K) (c : K) (hZ : Z.length = 2 ^ T) (hX : X.length = 2 ^ T)
    (hXval : ∀ k < 2 ^ T,
      X.getD k 0 = c * (embStageList ctx (2 ^ (s + 1)) (2 ^ T) Z).getD k 0) :
    ∀ k < 2 ^ T,
      (embInvStageList ctx (2 ^ (s + 1)) (2 ^ T) X).getD k 0 = (2 * c) * Z.getD k 0 := by
  intro k hk
  have h2 : (2:ℕ)^(s+1) = 2 * 2^s := by rw [pow_succ]; ring
  have hdvd : (2:ℕ)^(s+1) ∣ 2^T := pow_dvd_pow 2 hsT
  have hq := Nat.mod_add_div k (2^(s+1))
  have hjlt : k % 2^(s+1) < 2^(s+1) := Nat.mod_lt _ (Nat.two_pow_pos _)
  have hqlt : k / 2^(s+1) < 2^T / 2^(s+1) := Nat.div_lt_div_of_lt_of_dvd hdvd hk
  have hqm : (k / 2^(s+1) + 1) * 2^(s+1) ≤ (2^T / 2^(s+1)) * 2^(s+1) :=
    Nat.mul_le_mul_right _ (Nat.succ_le_of_lt hqlt)
  have hqm2 : (2^T / 2^(s+1)) * 2^(s+1) = 2^T := Nat.div_mul_cancel hdvd
  have haux : (k / 2^(s+1) + 1) * 2^(s+1) = 2^(s+1) * (k / 2^(s+1)) + 2^(s+1) := by
    ring
  rw [embInvStageList_getD ctx s T hsT X hX k, if_pos hk]
  by_cases hcase : k % 2^(s+1) < 2^s
  · have hk2 : k + 2^s < 2^T := by omega
    have hmod2 : (k + 2^s) % 2^(s+1) = k % 2^(s+1) + 2^s := by
      have hk' : k + 2^s = (k % 2^(s+1) + 2^s) + 2^(s+1) * (k / 2^(s+1)) := by omega
      rw [hk', Nat.add_mul_mod_self_left, Nat.mod_eq_of_lt (by omega)]
    rw [if_pos hcase, hXval k hk, hXval (k + 2^s) hk2,
      embStageList_getD ctx s T hsT Z hZ k, if_pos hk, if_pos hcase,
      embStageList_getD ctx s T hsT Z hZ (k + 2^s), if_pos hk2, hmod2,
      if_neg (by omega : ¬ k % 2^(s+1) + 2^s < 2^s), Nat.add_sub_cancel,
      Nat.add_sub_cancel]
    ring
  · have hks : 2^s ≤ k % 2^(s+1) := by omega
    have hsk : 2^s ≤ k := by omega
    have hk2 : k - 2^s < 2^T := by omega
    have hmod2 : (k - 2^s) % 2^(s+1) = k % 2^(s+1) - 2^s := by
      have hk' : k - 2^s = (k % 2^(s+1) - 2^s) + 2^(s+1) * (k / 2^(s+1)) := by omega
      rw [hk', Nat.add_mul_mod_self_left, Nat.mod_eq_of_lt (by omega)]
    have hsub : k - 2^s + 2^s = k := by omega
    rw [if_neg hcase, hXval k hk, hXval (k - 2^s) hk2,
      embStageList_getD ctx s T hsT Z hZ k, if_pos hk, if_neg hcase,
      embStageList_getD ctx s T hsT Z hZ (k - 2^s), if_pos hk2, hmod2,
      if_pos (by omega : k % 2^(s+1) - 2^s < 2^s), hsub]
    have hrr := hroots (k % 2^(s+1) - 2^s) (by omega)
    linear_combination (2 * c * Z.getD k 0) * hrr

/-- **C3**: for every `FFTContext` built (in idealized arithmetic over a field
holding a root `ζ` with `ζ^M = 1`, as `e^{2πi/M}` is over ℂ) at a power-of-two
length `M = 2^m ≥ 4`, and every vector `v` of length `M/4`,
`emb_inv(emb(v)) = v` exactly. -/
theorem C3_emb_roundtrip {K : Type} [Field K] (ζ : K) (m : ℕ) (hm : 2 ≤ m)
    (hζ : ζ ^ 2 ^ m = 1) (hn0 : ((2 : K) ^ (m - 2)) ≠ 0)
    (v : List K) (hv : v.length = 2 ^ (m - 2)) :
    embInvList (fftCtxInit K ζ (2 ^ m)) (embList (fftCtxInit K ζ (2 ^ m)) v) = v := by
  set T := m - 2 with hTdef
  set ctx := fftCtxInit K ζ (2 ^ m) with hctxdef
  set B := bitReverseVec v with hBdef
  have hBlen : B.length = 2 ^ T := by rw [hBdef, bitReverseVec_length, hv]
  have hM : ctx.M = 2 ^ m := rfl
  have hrou : ∀ i ≤ 2 ^ m, ctx.roots_of_unity.getD i 0 = ζ ^ i := by
    intro i hi
    show ((List.range (2 ^ m + 1)).map (fun i => ζ ^ i)).getD i 0 = ζ ^ i
    exact getD_map_range _ _ _ _ (by omega)
  have hroots : ∀ s < T, ∀ j < 2 ^ s,
      ctx.roots_of_unity.getD
          ((ctx.rot_group.getD j 0 % 2 ^ (s + 3)) * (ctx.M / 2 ^ (s + 3))) 0
        * ctx.roots_of_unity.getD
            ((2 ^ (s + 3) - ctx.rot_group.getD j 0 % 2 ^ (s + 3)) *
              (ctx.M / 2 ^ (s + 3))) 0 = 1 := by
    intro s hsT j hj
    set a := ctx.rot_group.getD j 0 % 2 ^ (s + 3) with hadef
    have ha : a < 2 ^ (s + 3) := Nat.mod_lt _ (Nat.two_pow_pos _)
    have hs3 : s + 3 ≤ m := by omega
    have hgap : ctx.M / 2 ^ (s + 3) = 2 ^ (m - (s + 3)) := by
      rw [hM]
      exact Nat.pow_div hs3 (by norm_num)
    have hprod : 2 ^ (s + 3) * 2 ^ (m - (s + 3)) = 2 ^ m := by
      rw [← pow_add]
      congr 1
      omega
    have hidx1 : a * 2 ^ (m - (s + 3)) ≤ 2 ^ m := by
      calc a * 2 ^ (m - (s + 3)) ≤ 2 ^ (s + 3) * 2 ^ (m - (s + 3)) :=
          Nat.mul_le_mul_right _ (by omega)
        _ = 2 ^ m := hprod
    have hidx2 : (2 ^ (s + 3) - a) * 2 ^ (m - (s + 3)) ≤ 2 ^ m := by
      calc (2 ^ (s + 3) - a) * 2 ^ (m - (s + 3))
          ≤ 2 ^ (s + 3) * 2 ^ (m - (s + 3)) := Nat.mul_le_mul_right _ (by omega)
        _ = 2 ^ m := hprod
    rw [hgap, hrou _ hidx1, hrou _ hidx2, ← pow_add]
    have hexp : a * 2 ^ (m - (s + 3)) + (2 ^ (s + 3) - a) * 2 ^ (m - (s + 3)) = 2 ^ m := by
      rw [← Nat.add_mul, show a + (2 ^ (s + 3) - a) = 2 ^ (s + 3) from by omega]
      exact hprod
    rw [hexp, hζ]
  set Y := (List.range T).foldl
    (fun res s => embStageList ctx (2 ^ (s + 1)) (2 ^ T) res) B with hYdef
  have hYlen : Y.length = 2 ^ T := by
    rw [hYdef, embFold_length]
    exact hBlen
  have hmain : ∀ t, t ≤ T →
      (((List.range t).foldl
          (fun res s => embInvStageList ctx (2 ^ T >>> s) (2 ^ T) res) Y).length = 2 ^ T)
      ∧ ∀ k < 2 ^ T,
          ((List.range t).foldl
            (fun res s => embInvStageList ctx (2 ^ T >>> s) (2 ^ T) res) Y).getD k 0
          = (2 : K) ^ t *
            ((List.range (T - t)).foldl
              (fun res s => embStageList ctx (2 ^ (s + 1)) (2 ^ T) res) B).getD k 0 := by
    intro t
    induction t with
    | zero =>
      intro _
      refine ⟨by rw [List.range_zero, List.foldl_nil]; exact hYlen, ?_⟩
      intro k hk
      rw [List.range_zero, List.foldl_nil, Nat.sub_zero, pow_zero, one_mul, ← hYdef]
    | succ t ih =>
      intro ht
      have ht' : t ≤ T := by omega
      obtain ⟨ihlen, ihval⟩ := ih ht'
      have hshift : (2:ℕ) ^ T >>> t = 2 ^ (T - t) := by
        rw [Nat.shiftRight_eq_div_pow]
        exact Nat.pow_div (by omega) (by norm_num)
      obtain ⟨s', hs'⟩ : ∃ s', T - t = s' + 1 := ⟨T - t - 1, by omega⟩
      have hs'T : s' < T := by omega
      have hfc : (List.range (T - t)).foldl
          (fun res s => embStageList ctx (2 ^ (s + 1)) (2 ^ T) res) B
          = embStageList ctx (2 ^ (s' + 1)) (2 ^ T)
              ((List.range s').foldl
                (fun res s => embStageList ctx (2 ^ (s + 1)) (2 ^ T) res) B) := by
        rw [hs', List.range_succ, List.foldl_append, List.foldl_cons, List.foldl_nil]
      have hstep : (List.range (t + 1)).foldl
          (fun res s => embInvStageList ctx (2 ^ T >>> s) (2 ^ T) res) Y
          = embInvStageList ctx (2 ^ (s' + 1)) (2 ^ T)
              ((List.range t).foldl
                (fun res s => embInvStageList ctx (2 ^ T >>> s) (2 ^ T) res) Y) := by
        rw [List.range_succ, List.foldl_append, List.foldl_cons, List.foldl_nil,
          hshift, hs']
      have hcancel := embInv_cancel ctx s' T hs'T
        (hroots s' hs'T)
        ((List.range s').foldl
          (fun res s => embStageList ctx (2 ^ (s + 1)) (2 ^ T) res) B)
        ((List.range t).foldl
          (fun res s => embInvStageList ctx (2 ^ T >>> s) (2 ^ T) res) Y)
        ((2 : K) ^ t)
        (by rw [embFold_length]; exact hBlen)
        ihlen
        (by
          intro k hk
          rw [ihval k hk, hfc])
      constructor
      · rw [hstep, embInvStageList_length]
        exact ihlen
      · intro k hk
        rw [hstep, hcancel k hk,
          show T - (t + 1) = s' from by omega,
          show (2 : K) ^ (t + 1) = 2 * 2 ^ t from by rw [pow_succ]; ring]
  obtain ⟨hICLen, hICval⟩ := hmain T le_rfl
  have hfull : (List.range (T + 1)).foldl
      (fun res s => embInvStageList ctx (2 ^ T >>> s) (2 ^ T) res) Y
      = (List.range T).foldl
          (fun res s => embInvStageList ctx (2 ^ T >>> s) (2 ^ T) res) Y := by
    rw [List.range_succ, List.foldl_append, List.foldl_cons, List.foldl_nil,
      show (2:ℕ) ^ T >>> T = 1 from by
        rw [Nat.shiftRight_eq_div_pow]
        exact Nat.div_self (Nat.two_pow_pos T),
      embInvStageList_one]
  have hemb : embList ctx v = Y := by
    rw [embList, hv, log2E_two_pow]
  rw [hemb, embInvList]
  simp only [hYlen, log2E_two_pow]
  rw [hfull]
  apply List.ext_getElem
  · simp [hv]
  · intro i h1 h2
    rw [List.getElem_map, List.getElem_range]
    have hiT : i < 2 ^ T := by simpa using h1
    have hrb : reverseBits i T < 2 ^ T := reverseBits_lt i T
    rw [bitReverseVec_getD _ i (by rw [hICLen]; exact hiT), hICLen, log2E_two_pow,
      hICval (reverseBits i T) hrb, Nat.sub_self, List.range_zero, List.foldl_nil,
      hBdef, bitReverseVec_getD _ _ (by rw [hv]; exact hrb), hv, log2E_two_pow,
      reverseBits_reverseBits i T hiT]
    have hcast : (((2 : ℕ) ^ T : ℕ) : K) = (2 : K) ^ T := by push_cast; ring
    rw [hcast, mul_div_cancel_left₀ _ hn0]
    rw [List.getD_eq_getElem?_getD, List.getElem?_eq_getElem h2]
    rfl

/-- Concrete instance of C3: `M = 16` over the field `ZMod 17` with
`ζ = 3` (a 16th root of unity), `v = [1,2,3,4]` of length `M/4 = 4`. -/
theorem C3_emb_roundtrip_witness :
    (3 : ZMod 17) ^ 2 ^ 4 = 1 ∧ ((2 : ZMod 17) ^ (4 - 2)) ≠ 0 ∧
    embInvList (fftCtxInit (ZMod 17) 3 (2 ^ 4))
        (embList (fftCtxInit (ZMod 17) 3 (2 ^ 4)) [1, 2, 3, 4]) = [1, 2, 3, 4] :=
  ⟨by decide, by decide,
    C3_emb_roundtrip (3 : ZMod 17) 4 (by norm_num) (by decide) (by decide)
      [1, 2, 3, 4] (by decide)⟩
